import Mathlib

/-!
Verification of the dt_renamer rule-evaluation engine.

A shallow embedding of the core of the repository (crate dt_renamer):
the match-rule evaluator (src/operations/match_rule.rs), the expression
evaluator (src/operations/expressions.rs), the file- and directory-operation
evaluators (src/operations/file.rs, src/operations/directory.rs), the
operation engine (src/operation_engine.rs) and the tree builder / execution
driver (src/rename_tree.rs).

Modelling conventions:
* Rust String is modelled byte-faithfully as a list of Unicode code points
  (RString); every byte-indexed operation (slicing, insert_str) is partial
  and returns none exactly when Rust would panic on a non-char-boundary or
  out-of-range byte index.  UTF-8 is self-synchronizing, so substring
  search (str::find / rfind) always reports char-boundary byte offsets and
  is modelled at the code-point level, with byte offsets recovered from the
  UTF-8 width of each code point.
* PathBuf is modelled as its list of normal components (RPath); file_name
  is the last component, set_file_name pops the last component (when one
  exists) and pushes the new one, mirroring std::path semantics for the
  paths that occur in this development.
* Failure is split the way Rust splits it: Except carrying either the
  crate's Error enum (Fail.error) or an abort corresponding to a Rust
  panic / unwrap failure (Fail.panicked).
* Filesystem effects are confined to the rename primitive, which the spec
  treats as an external collaborator: a run is parameterised by an oracle
  deciding which rename syscalls succeed, and an FsState records the log
  of performed renames.  dry_run uses the pure echo primitive from the
  source (dry_rename_file).
* Loops that Rust writes as `while` are written with an explicit fuel
  argument whose initial value is the exact trip count of the source loop;
  the trip count is exact because run_file provably preserves the length
  of the file list and the cursor (see the preservation lemmas).
-/

/-- A Unicode code point of a Rust String, as a natural number. -/
abbrev RChar := Nat

/-- A Rust String: its list of code points. -/
abbrev RString := List RChar

/-- Number of bytes of the UTF-8 encoding of one code point. -/
def utf8Width (c : RChar) : Nat :=
  if c < 128 then 1 else if c < 2048 then 2 else if c < 65536 then 3 else 4

/-- Byte length of a string (String::len in Rust). -/
def byteLen (s : RString) : Nat := (s.map utf8Width).sum

/-- Embed a Lean string literal as an RString. -/
def strToR (s : String) : RString := s.data.map Char.toNat

/-- Every code point is ASCII (one UTF-8 byte). -/
def allAscii (s : RString) : Prop := ∀ c ∈ s, c < 128

instance (s : RString) : Decidable (allAscii s) := by
  unfold allAscii; infer_instance

/-- Byte slice s[0..k] (Rust &s[..k]): none exactly when Rust panics,
i.e. when k is not a char boundary or k exceeds the byte length. -/
def sliceTo (s : RString) (k : Nat) : Option RString :=
  match s, k with
  | _, 0 => some []
  | [], _ + 1 => none
  | c :: rest, k + 1 =>
    if utf8Width c ≤ k + 1 then
      (sliceTo rest (k + 1 - utf8Width c)).map (fun t => c :: t)
    else none

/-- Byte slice s[k..] (Rust &s[k..]): none exactly when Rust panics. -/
def sliceFrom (s : RString) (k : Nat) : Option RString :=
  match s, k with
  | s, 0 => some s
  | [], _ + 1 => none
  | c :: rest, k + 1 =>
    if utf8Width c ≤ k + 1 then sliceFrom rest (k + 1 - utf8Width c) else none

/-- Rust String::insert_str(idx, ins): partial at non-boundary / out-of-range idx. -/
def rustInsertStr (base : RString) (idx : Nat) (ins : RString) : Option RString :=
  match sliceTo base idx, sliceFrom base idx with
  | some pre, some post => some (pre ++ ins ++ post)
  | _, _ => none

/-- Boolean prefix test on code-point lists. -/
def rstrIsPrefixOf : RString → RString → Bool
  | [], _ => true
  | _ :: _, [] => false
  | a :: as, b :: bs => a == b && rstrIsPrefixOf as bs

/-- Worker for rustFind: byte offset accumulated in ofs. -/
def rustFindAux : RString → RString → Nat → Option Nat
  | h, n, ofs =>
    if rstrIsPrefixOf n h then some ofs
    else
      match h with
      | [] => none
      | c :: rest => rustFindAux rest n (ofs + utf8Width c)

/-- Rust str::find with a literal pattern: byte offset of the first match. -/
def rustFind (h n : RString) : Option Nat := rustFindAux h n 0

/-- Worker for rustRFind: remembers the last match seen. -/
def rustRFindAux : RString → RString → Nat → Option Nat → Option Nat
  | h, n, ofs, best =>
    let best' := if rstrIsPrefixOf n h then some ofs else best
    match h with
    | [] => best'
    | c :: rest => rustRFindAux rest n (ofs + utf8Width c) best'

/-- Rust str::rfind with a literal pattern: byte offset of the last match. -/
def rustRFind (h n : RString) : Option Nat := rustRFindAux h n 0 none

/-- Worker for rustReplace (nonempty pattern), with fuel; the call site
passes fuel = s.length, which is exact since every step consumes at least
one code point of s. -/
def rustReplaceGo (m r : RString) : Nat → RString → RString
  | 0, s => s
  | fuel + 1, s =>
    if rstrIsPrefixOf m s then r ++ rustReplaceGo m r fuel (s.drop m.length)
    else
      match s with
      | [] => []
      | c :: rest => c :: rustReplaceGo m r fuel rest

/-- Rust str::replace (all non-overlapping occurrences, left to right);
an empty pattern matches at every char boundary. -/
def rustReplace (s m r : RString) : RString :=
  if m.isEmpty then r ++ s.flatMap (fun c => c :: r)
  else rustReplaceGo m r s.length s

/-- ASCII fragment of Rust char uppercase mapping (the full Unicode tables
live in external data; no claim depends on non-ASCII case mapping). -/
def asciiToUpper (c : RChar) : RChar := if 97 ≤ c ∧ c ≤ 122 then c - 32 else c

/-- ASCII fragment of Rust char lowercase mapping. -/
def asciiToLower (c : RChar) : RChar := if 65 ≤ c ∧ c ≤ 90 then c + 32 else c

/-- Rust String::to_uppercase, ASCII fragment. -/
def rustToUppercase (s : RString) : RString := s.map asciiToUpper

/-- Rust String::to_lowercase, ASCII fragment. -/
def rustToLowercase (s : RString) : RString := s.map asciiToLower

/-- Decimal rendering of usize (usize::to_string). -/
def natToRString (n : Nat) : RString := (Nat.toDigits 10 n).map Char.toNat

/-- Index of the last '.' (code 46) in a file name, if any. -/
def lastDotIdx (n : RString) : Option Nat :=
  ((List.range n.length).filter (fun i => n.getD i 0 = 46)).getLast?

/-- Rust Path::extension applied to a file name: the part after the last
dot, none when there is no dot or the only dot is leading. -/
def rstrExtension? (n : RString) : Option RString :=
  match lastDotIdx n with
  | none => none
  | some 0 => none
  | some i => some (n.drop (i + 1))

/-- Rust Path::file_stem applied to a file name. -/
def rstrStem (n : RString) : RString :=
  match lastDotIdx n with
  | none => n
  | some 0 => n
  | some i => n.take i

/-- A PathBuf, as its list of normal components. -/
structure RPath where
  components : List RString
deriving DecidableEq

/-- Path::file_name: the last component (paths whose last component is a
special component such as `..` do not occur in this development). -/
def RPath.fileName? (p : RPath) : Option RString := p.components.getLast?

/-- PathBuf::set_file_name: pop the file name when present, push the new one. -/
def RPath.setFileName (p : RPath) (name : RString) : RPath :=
  ⟨p.components.dropLast ++ [name]⟩

/-- Path::extension of the destination path. -/
def RPath.extension? (p : RPath) : Option RString := p.fileName?.bind rstrExtension?

/-- PathBuf::set_extension: no-op when the path has no file name. -/
def RPath.setExtension (p : RPath) (ext : RString) : RPath :=
  match p.fileName? with
  | none => p
  | some n =>
    p.setFileName (if ext.isEmpty then rstrStem n else rstrStem n ++ [46] ++ ext)

/-- Concatenate the images of f over a list. -/
def catMap (f : α → List β) : List α → List β
  | [] => []
  | a :: rest => f a ++ catMap f rest

/-- Path::display().to_string(): components joined by '/'. -/
def RPath.display (p : RPath) : RString :=
  match p.components with
  | [] => []
  | c :: rest => c ++ catMap (fun x => 47 :: x) rest

/-- Lexicographic comparison of code-point lists; agrees with the byte-wise
Ord of OsStr because UTF-8 preserves code-point order. -/
def rstrCmp : RString → RString → Ordering
  | [], [] => .eq
  | [], _ :: _ => .lt
  | _ :: _, [] => .gt
  | a :: as, b :: bs =>
    if a < b then .lt else if b < a then .gt else rstrCmp as bs

/-- Component-wise comparison of paths (Ord for PathBuf). -/
def rpathCmpAux : List RString → List RString → Ordering
  | [], [] => .eq
  | [], _ :: _ => .lt
  | _ :: _, [] => .gt
  | a :: as, b :: bs =>
    match rstrCmp a b with
    | .lt => .lt
    | .gt => .gt
    | .eq => rpathCmpAux as bs

/-- Ord::cmp on PathBuf. -/
def RPath.cmp (a b : RPath) : Ordering := rpathCmpAux a.components b.components

/-- Error enum of src/error.rs, together with the two evaluation errors the
current sources construct (VariableNotDefined, CannotIdentifyFileExtension);
io::Error payloads are irrelevant to control flow and dropped. -/
inductive RError where
  | walkerError
  | notDirectory (p : RString)
  | notFile (p : RString)
  | duplicateFileError (p : RString)
  | renameError
  | canonicalizeError
  | readDirError
  | readDirEntryError
  | cannotIdentifyFileName
  | insertIndexTooLarge
  | variableNotDefined (name : RString)
  | cannotIdentifyFileExtension
deriving DecidableEq

/-- Abnormal termination: a Rust Err value, or a Rust panic (slice
out-of-boundary, unwrap on None, index out of bounds). -/
inductive Fail where
  | error (e : RError)
  | panicked
deriving DecidableEq

/-- Selection (src/operations/supporting_objects.rs). -/
inductive Selection where
  | first
  | last
  | all
deriving DecidableEq

/-- Position (src/operations/supporting_objects.rs); regex variants are
behind the optional regex_match feature and outside the core. -/
inductive Position where
  | index (i : Nat)
  | after (f : RString)
  | before (f : RString)
  | start
  | end_
deriving DecidableEq

/-- SortDirection (src/operations/supporting_objects.rs). -/
inductive SortDirection where
  | ascending
  | descending
deriving DecidableEq

/-- MatchRule (src/operations/match_rule.rs); the regex leaf is behind the
optional regex_match feature and outside the core. -/
inductive MatchRule where
  | equals (s : RString)
  | contains (s : RString)
  | beginsWith (s : RString)
  | endsWith (s : RString)
  | not (r : MatchRule)
  | and (r1 r2 : MatchRule)
  | or (r1 r2 : MatchRule)
deriving DecidableEq

/-- MatchRule::resolve.  Returns none exactly when the Rust code panics
(byte-range indexing at a non-char-boundary in BeginsWith / EndsWith).
The && and || of the source short-circuit. -/
def MatchRule.resolve : MatchRule → RString → Option Bool
  | .equals s, input => some (input == s)
  | .contains s, input =>
    if byteLen input < byteLen s then some false
    else some (rustFind input s).isSome
  | .beginsWith s, input =>
    if byteLen input < byteLen s then some false
    else (sliceTo input (byteLen s)).map (fun t => t == s)
  | .endsWith s, input =>
    if byteLen input < byteLen s then some false
    else (sliceFrom input (byteLen input - byteLen s)).map (fun t => t == s)
  | .and r1 r2, input =>
    match r1.resolve input with
    | none => none
    | some false => some false
    | some true => r2.resolve input
  | .or r1 r2, input =>
    match r1.resolve input with
    | none => none
    | some true => some true
    | some false => r2.resolve input
  | .not r, input => (r.resolve input).map (fun b => !b)

/-- Expression trees (src/operations/expressions.rs).  Each Rust struct
XyzExpr implementing the Expression trait is one constructor; the closed
sum follows the spec's design note for the boxed trait objects.  The
convert_case crate is an external collaborator: a ConvertCase node carries
the string mapping its Case denotes. -/
inductive Expression where
  | insert (position : Position) (base insertion_text : Expression)
  | replace (content : Expression) (selection : Selection)
      (match_str replacement : Expression)
  | ifExpr (condition : MatchRule) (then_expr : Expression)
      (else_expr : Option Expression)
  | convertCase (case : RString → RString) (input : Expression)
  | toUpperCase (input : Expression)
  | toLowerCase (input : Expression)
  | variableExpr (var : RString)
  | assignVariable (var : RString) (value : Expression)
  | left (input : Expression) (match_str : Expression) (inclusive : Bool)
  | right (input : Expression) (match_str : Expression) (inclusive : Bool)
  | combine (lhs rhs : Expression)
  | constant (value : RString)
  | fileName
  | fileExtension

/-- File operations (src/operations/file.rs). -/
inductive FileOperation where
  | ifOperation (condition : MatchRule) (then_op : FileOperation)
      (else_op : Option FileOperation)
  | setName (name : Expression)
  | setStem (stem : Expression)
  | setExtension (extension : Expression)
  | noOp (expression : Expression)

/-- Directory operations (src/operations/directory.rs). -/
inductive DirOperation where
  | sort (direction : SortDirection)
  | remove (rule : MatchRule)
  | includeOnly (rule : MatchRule)
  | offsetLocalIndex (offset : Nat)

/-- File record (src/rename_tree.rs). -/
structure File where
  source : RPath
  ops : List FileOperation
  destination : RPath

/-- Dir record (src/rename_tree.rs); contents is the file list produced by
the external walker collaborator during Dir::build. -/
structure Dir where
  path : RPath
  recursive : Bool
  dir_ops : List DirOperation
  file_ops : List FileOperation
  contents : List File
  processed : Bool

/-- OperationEngine state (src/operation_engine.rs).  The HashMap field
named variables in the source is called vars here (variables is a reserved
word in Lean); it is modelled as an association list with insert-or-replace. -/
structure OperationEngine where
  global_index : Nat
  local_index : Nat
  vars : List (RString × RString)
  dir_operations : List DirOperation
  file_operations : List FileOperation
  current_file : Nat
  files : List File

/-- HashMap::insert: replace the binding when the key is present. -/
def insertVar : List (RString × RString) → RString → RString → List (RString × RString)
  | [], k, v => [(k, v)]
  | (k', v') :: rest, k, v =>
    if k' = k then (k, v) :: rest else (k', v') :: insertVar rest k v

/-- HashMap::get. -/
def lookupVar : List (RString × RString) → RString → Option RString
  | [], _ => none
  | (k', v') :: rest, k => if k' = k then some v' else lookupVar rest k

/-- The reserved variable name global_index. -/
def global_index_name : RString := strToR ("global_index")

/-- The reserved variable name local_index. -/
def local_index_name : RString := strToR ("local_index")

/-- OperationEngine::new. -/
def OperationEngine.new (dir_operations : List DirOperation)
    (file_operations : List FileOperation) : OperationEngine :=
  { global_index := 0, local_index := 0, vars := [],
    dir_operations := dir_operations, file_operations := file_operations,
    current_file := 0, files := [] }

/-- OperationEngine::set_local_index. -/
def OperationEngine.set_local_index (e : OperationEngine) (index : Nat) :
    OperationEngine :=
  { e with local_index := index }

/-- OperationEngine::set_variable. -/
def OperationEngine.set_variable (e : OperationEngine) (var_name value : RString) :
    OperationEngine :=
  { e with vars := insertVar e.vars var_name value }

/-- OperationEngine::get_variable: the two index names shadow the table. -/
def OperationEngine.get_variable (e : OperationEngine) (var_name : RString) :
    Option RString :=
  if var_name = global_index_name then some (natToRString e.global_index)
  else if var_name = local_index_name then some (natToRString e.local_index)
  else lookupVar e.vars var_name

/-- OperationEngine::current_file as a partial read; the source indexes
self.files[self.current_file] and panics when out of bounds. -/
def OperationEngine.currentFile? (e : OperationEngine) : Option File :=
  e.files[e.current_file]?

/-- Replace the destination of the current file record. -/
def OperationEngine.setCurrentDest (e : OperationEngine) (f : File) (d : RPath) :
    OperationEngine :=
  { e with files := e.files.set e.current_file { f with destination := d } }

/-- Splice for ReplaceExpr First/Last: input[0..pos] ++ repl ++ input[pos+mlen..]. -/
def spliceAt (input repl : RString) (pos mlen : Nat) : Option RString :=
  match sliceTo input pos, sliceFrom input (pos + mlen) with
  | some a, some b => some (a ++ repl ++ b)
  | _, _ => none

/-- Expression::execute (src/operations/expressions.rs).  Returns the
optional produced string and the updated engine; the unwrap_res_op! macro
of the source is the early return on a none sub-result.  Abnormal exits:
Fail.error for ? on an Err, Fail.panicked where the Rust code indexes out
of bounds or unwraps a None. -/
def Expression.execute : Expression → OperationEngine →
    Except Fail (Option RString × OperationEngine)
  | .constant v, e => .ok (some v, e)
  | .variableExpr var, e =>
    match e.get_variable var with
    | some v => .ok (some v, e)
    | none => .error (.error (.variableNotDefined var))
  | .assignVariable var value, e =>
    match value.execute e with
    | .error f => .error f
    | .ok (none, e1) => .ok (none, e1)
    | .ok (some v, e1) => .ok (some v, e1.set_variable var v)
  | .combine lhs rhs, e =>
    match lhs.execute e with
    | .error f => .error f
    | .ok (none, e1) => rhs.execute e1
    | .ok (some l, e1) =>
      match rhs.execute e1 with
      | .error f => .error f
      | .ok (none, e2) => .ok (some l, e2)
      | .ok (some r, e2) => .ok (some (l ++ r), e2)
  | .toUpperCase input, e =>
    match input.execute e with
    | .error f => .error f
    | .ok (o, e1) => .ok (o.map rustToUppercase, e1)
  | .toLowerCase input, e =>
    match input.execute e with
    | .error f => .error f
    | .ok (o, e1) => .ok (o.map rustToLowercase, e1)
  | .convertCase case input, e =>
    match input.execute e with
    | .error f => .error f
    | .ok (o, e1) => .ok (o.map case, e1)
  | .left input match_str inclusive, e =>
    match input.execute e with
    | .error f => .error f
    | .ok (none, e1) => .ok (none, e1)
    | .ok (some i, e1) =>
      match match_str.execute e1 with
      | .error f => .error f
      | .ok (none, e2) => .ok (none, e2)
      | .ok (some m, e2) =>
        match rustFind i m with
        | none => .ok (some i, e2)
        | some slice =>
          let slice := if inclusive then slice + byteLen m else slice
          match sliceTo i slice with
          | some res => .ok (some res, e2)
          | none => .error .panicked
  | .right input match_str inclusive, e =>
    match input.execute e with
    | .error f => .error f
    | .ok (none, e1) => .ok (none, e1)
    | .ok (some i, e1) =>
      match match_str.execute e1 with
      | .error f => .error f
      | .ok (none, e2) => .ok (none, e2)
      | .ok (some m, e2) =>
        match rustFind i m with
        | none => .ok (some i, e2)
        | some slice =>
          let slice := if inclusive then slice else slice + byteLen m
          match sliceFrom i slice with
          | some res => .ok (some res, e2)
          | none => .error .panicked
  | .fileName, e =>
    match e.currentFile? with
    | none => .error .panicked
    | some f => .ok (f.destination.fileName?, e)
  | .fileExtension, e =>
    match e.currentFile? with
    | none => .error .panicked
    | some f => .ok (f.destination.extension?, e)
  | .ifExpr condition then_expr else_expr, e =>
    match e.currentFile? with
    | none => .error .panicked
    | some f =>
      match f.destination.fileName? with
      | none => .error .panicked
      | some nm =>
        match condition.resolve nm with
        | none => .error .panicked
        | some true => then_expr.execute e
        | some false =>
          match else_expr with
          | some else_branch => else_branch.execute e
          | none => .ok (none, e)
  | .insert position base insertion_text, e =>
    match base.execute e with
    | .error f => .error f
    | .ok (none, e1) => .ok (none, e1)
    | .ok (some b, e1) =>
      match insertion_text.execute e1 with
      | .error f => .error f
      | .ok (none, e2) => .ok (none, e2)
      | .ok (some it, e2) =>
        match position with
        | .index i =>
          match rustInsertStr b (min i (byteLen b)) it with
          | some res => .ok (some res, e2)
          | none => .error .panicked
        | .after f =>
          match rustFind b f with
          | none => .ok (none, e2)
          | some insert_pos =>
            match rustInsertStr b (insert_pos + byteLen f) it with
            | some res => .ok (some res, e2)
            | none => .error .panicked
        | .before f =>
          match rustFind b f with
          | none => .ok (none, e2)
          | some insert_pos =>
            match rustInsertStr b insert_pos it with
            | some res => .ok (some res, e2)
            | none => .error .panicked
        | .start => .ok (some (it ++ b), e2)
        | .end_ => .ok (some (b ++ it), e2)
  | .replace content selection match_str replacement, e =>
    match content.execute e with
    | .error f => .error f
    | .ok (none, e1) => .ok (none, e1)
    | .ok (some input, e1) =>
      match match_str.execute e1 with
      | .error f => .error f
      | .ok (none, e2) => .ok (none, e2)
      | .ok (some mtch, e2) =>
        match replacement.execute e2 with
        | .error f => .error f
        | .ok (none, e3) => .ok (none, e3)
        | .ok (some repl, e3) =>
          match selection with
          | .first =>
            match rustFind input mtch with
            | some slice =>
              match spliceAt input repl slice (byteLen mtch) with
              | some res => .ok (some res, e3)
              | none => .error .panicked
            | none => .ok (some input, e3)
          | .last =>
            match rustRFind input mtch with
            | some slice =>
              match spliceAt input repl slice (byteLen mtch) with
              | some res => .ok (some res, e3)
              | none => .error .panicked
            | none => .ok (some input, e3)
          | .all => .ok (some (rustReplace input mtch repl), e3)

/-- FileOperation::execute (src/operations/file.rs): returns whether the
destination changed, plus the updated engine.  The If condition is
resolved against destination_path_string (the full displayed path). -/
def FileOperation.execute : FileOperation → OperationEngine →
    Except Fail (Bool × OperationEngine)
  | .noOp expression, e =>
    match expression.execute e with
    | .error f => .error f
    | .ok (_, e1) => .ok (false, e1)
  | .ifOperation condition then_op else_op, e =>
    match e.currentFile? with
    | none => .error .panicked
    | some f =>
      match condition.resolve f.destination.display with
      | none => .error .panicked
      | some true => then_op.execute e
      | some false =>
        match else_op with
        | some else_branch => else_branch.execute e
        | none => .ok (false, e)
  | .setName name, e =>
    match name.execute e with
    | .error f => .error f
    | .ok (none, e1) => .ok (false, e1)
    | .ok (some nm, e1) =>
      match e1.currentFile? with
      | none => .error .panicked
      | some f => .ok (true, e1.setCurrentDest f (f.destination.setFileName nm))
  | .setStem stem, e =>
    match stem.execute e with
    | .error f => .error f
    | .ok (none, e1) => .ok (false, e1)
    | .ok (some nm, e1) =>
      match e1.currentFile? with
      | none => .error .panicked
      | some f =>
        match f.destination.extension? with
        | some ext =>
          .ok (true, e1.setCurrentDest f
            (f.destination.setFileName (nm ++ [46] ++ ext)))
        | none => .ok (true, e1.setCurrentDest f (f.destination.setFileName nm))
  | .setExtension extension, e =>
    match extension.execute e with
    | .error f => .error f
    | .ok (none, e1) => .ok (false, e1)
    | .ok (some ext, e1) =>
      match e1.currentFile? with
      | none => .error .panicked
      | some f => .ok (true, e1.setCurrentDest f (f.destination.setExtension ext))

/-- Insert one file into a list sorted by le (worker for the sort model). -/
def insertSorted (le : File → File → Bool) (f : File) : List File → List File
  | [] => [f]
  | g :: rest => if le f g then f :: g :: rest else g :: insertSorted le f rest

/-- Model of Vec::sort_unstable_by: a sorted permutation of the input (the
order among elements whose destinations compare equal is unspecified in
the source; insertion sort fixes one). -/
def sortFiles (le : File → File → Bool) : List File → List File
  | [] => []
  | f :: rest => insertSorted le f (sortFiles le rest)

/-- Shared body of the Remove / IncludeOnly loops: resolve the rule on each
file's destination file name, keep the file when the result equals
keepOnMatch; file names that cannot be extracted are the
CannotIdentifyFileName error. -/
def filterFilesByRule (rule : MatchRule) (keepOnMatch : Bool) :
    List File → Except Fail (List File)
  | [] => .ok []
  | f :: rest =>
    match f.destination.fileName? with
    | none => .error (.error .cannotIdentifyFileName)
    | some nm =>
      match rule.resolve nm with
      | none => .error .panicked
      | some b =>
        match filterFilesByRule rule keepOnMatch rest with
        | .error fl => .error fl
        | .ok tl => .ok (if b = keepOnMatch then f :: tl else tl)

/-- DirOperation::execute (src/operations/directory.rs). -/
def DirOperation.execute : DirOperation → OperationEngine → List File →
    Except Fail (OperationEngine × List File)
  | .sort direction, e, input =>
    match direction with
    | .ascending =>
      .ok (e, sortFiles (fun a b => (a.destination.cmp b.destination) ≠ .gt) input)
    | .descending =>
      .ok (e, sortFiles (fun a b => (b.destination.cmp a.destination) ≠ .gt) input)
  | .remove rule, e, input =>
    match filterFilesByRule rule false input with
    | .error fl => .error fl
    | .ok res => .ok (e, res)
  | .includeOnly rule, e, input =>
    match filterFilesByRule rule true input with
    | .error fl => .error fl
    | .ok res => .ok (e, res)
  | .offsetLocalIndex offset, e, input => .ok (e.set_local_index offset, input)

/-- Sequentially execute file operations, discarding the change flags
(the for-loops of OperationEngine::run_file). -/
def OperationEngine.run_file_ops : List FileOperation → OperationEngine →
    Except Fail OperationEngine
  | [], e => .ok e
  | op :: rest, e =>
    match op.execute e with
    | .error f => .error f
    | .ok (_, e1) => OperationEngine.run_file_ops rest e1

/-- OperationEngine::run_file: the engine's default file operations in
order, then the current file's own operations in order, then the
unconditional increments of global_index and local_index.  The read of
self.current_file().ops panics when the cursor is out of bounds. -/
def OperationEngine.run_file (e : OperationEngine) : Except Fail OperationEngine :=
  match OperationEngine.run_file_ops e.file_operations e with
  | .error f => .error f
  | .ok e1 =>
    match e1.currentFile? with
    | none => .error .panicked
    | some f =>
      match OperationEngine.run_file_ops f.ops e1 with
      | .error fl => .error fl
      | .ok e2 =>
        .ok { e2 with global_index := e2.global_index + 1,
                      local_index := e2.local_index + 1 }

/-- The while loop of OperationEngine::run_files, with fuel; the loop body
runs while current_file < files.len(), and run_file never changes the
length of the file list nor the cursor (run_file_preserves below), so the
fuel passed by run_files is the exact trip count. -/
def OperationEngine.run_files_loop : Nat → OperationEngine →
    Except Fail OperationEngine
  | 0, e => .ok e
  | fuel + 1, e =>
    if e.current_file < e.files.length then
      match e.run_file with
      | .error f => .error f
      | .ok e1 =>
        OperationEngine.run_files_loop fuel { e1 with current_file := e1.current_file + 1 }
    else .ok e

/-- OperationEngine::run_files: installs the file list, then loops.  Note
the source does not reset current_file here. -/
def OperationEngine.run_files (e : OperationEngine) (files : List File) :
    Except Fail OperationEngine :=
  OperationEngine.run_files_loop (files.length - e.current_file)
    { e with files := files }

/-- Sequentially execute directory operations on the working file list. -/
def OperationEngine.run_dir_ops : List DirOperation → OperationEngine →
    List File → Except Fail (OperationEngine × List File)
  | [], e, files => .ok (e, files)
  | op :: rest, e, files =>
    match op.execute e files with
    | .error f => .error f
    | .ok (e1, files1) => OperationEngine.run_dir_ops rest e1 files1

/-- OperationEngine::process_dir: reset local_index, take the directory's
contents, run the engine's default directory operations (the source moves
them out with std::mem::take, leaving the engine's list empty afterwards),
then the directory's own operations, then run_files. -/
def OperationEngine.process_dir (e : OperationEngine) (dir : Dir) :
    Except Fail OperationEngine :=
  let e := { e with local_index := 0 }
  let files := dir.contents
  let defaults := e.dir_operations
  let e := { e with dir_operations := [] }
  match OperationEngine.run_dir_ops defaults e files with
  | .error f => .error f
  | .ok (e1, files1) =>
    match OperationEngine.run_dir_ops dir.dir_ops e1 files1 with
    | .error f => .error f
    | .ok (e2, files2) => e2.run_files files2

/-- OperationEngine::process_file: single-file mode. -/
def OperationEngine.process_file (e : OperationEngine) (file : File) :
    Except Fail OperationEngine :=
  OperationEngine.run_file { e with local_index := 0, files := [file], current_file := 0 }

/-- OperationEngine::into_files. -/
def OperationEngine.into_files (e : OperationEngine) : List File := e.files

/-- Rename result (src/rename_tree.rs). -/
structure RenameResult where
  source : RPath
  destination : RPath
deriving DecidableEq

/-- The rename tree: the BTreeSet file_set is modelled as a list of paths
used as a set. -/
structure RenameTree where
  file_set : List RPath
  files : List File

/-- The builder (src/rename_tree.rs).  The standalone files field can hold
File records; the source validates them during build but never adds them
to the engine or the resulting tree. -/
structure RTBuilder where
  directories : List Dir
  files : List File
  dir_ops : List DirOperation
  file_ops : List FileOperation

/-- The for-loop of RenameTree::build_from_builder over the directories.
Dir::build (the filesystem walk filling contents) is the external walker
collaborator; here the contents are the lists already stored in the Dir
records, and the File::validate filesystem checks are modelled as
succeeding. -/
def OperationEngine.process_dirs : List Dir → OperationEngine →
    Except Fail OperationEngine
  | [], e => .ok e
  | dir :: rest, e =>
    match e.process_dir dir with
    | .error f => .error f
    | .ok e1 => OperationEngine.process_dirs rest e1

/-- RenameTree::build_from_builder followed by the From<OperationEngine>
conversion: the tree holds the engine's final file list and an empty
file_set. -/
def RenameTree.build_from_builder (builder : RTBuilder) :
    Except Fail RenameTree :=
  match OperationEngine.process_dirs builder.directories
      (OperationEngine.new builder.dir_ops builder.file_ops) with
  | .error f => .error f
  | .ok e => .ok { file_set := [], files := e.into_files }

/-- The filesystem at commit time: the log of rename syscalls performed. -/
structure FsState where
  renames : List (RPath × RPath)
deriving DecidableEq

/-- RenameTree::dry_rename_file: no I/O, echo the pair. -/
def dry_rename_file (source destination : RPath) (st : FsState) :
    FsState × Except Fail RenameResult :=
  (st, .ok { source := source, destination := destination })

/-- RenameTree::rename_file: fs::rename is the external primitive; ok
decides which syscalls succeed, and a successful call is appended to the
log.  On failure the error is RenameError. -/
def rename_file (ok : RPath → RPath → Bool) (source destination : RPath)
    (st : FsState) : FsState × Except Fail RenameResult :=
  if ok source destination then
    ({ renames := st.renames ++ [(source, destination)] },
     .ok { source := source, destination := destination })
  else (st, .error (.error .renameError))

/-- The for-loop of RenameTree::run_with_fn: BTreeSet::insert returning
false (source already claimed) is the duplicate-source error; otherwise
the rename primitive runs and its result is pushed. -/
def runWithFnGo (rename : RPath → RPath → FsState → FsState × Except Fail RenameResult)
    (file_set : List RPath) : List File → FsState →
    FsState × Except Fail (List RenameResult)
  | [], st => (st, .ok [])
  | f :: rest, st =>
    if f.source ∈ file_set then
      (st, .error (.error (.duplicateFileError f.source.display)))
    else
      match rename f.source f.destination st with
      | (st1, .error fl) => (st1, .error fl)
      | (st1, .ok r) =>
        match runWithFnGo rename (f.source :: file_set) rest st1 with
        | (st2, .error fl) => (st2, .error fl)
        | (st2, .ok rs) => (st2, .ok (r :: rs))

/-- RenameTree::run_with_fn. -/
def RenameTree.run_with_fn (t : RenameTree)
    (rename : RPath → RPath → FsState → FsState × Except Fail RenameResult)
    (st : FsState) : FsState × Except Fail (List RenameResult) :=
  runWithFnGo rename t.file_set t.files st

/-- RenameTree::dry_run. -/
def RenameTree.dry_run (t : RenameTree) (st : FsState) :
    FsState × Except Fail (List RenameResult) :=
  t.run_with_fn dry_rename_file st

/-- RenameTree::run, parameterised by the syscall-success oracle. -/
def RenameTree.run (t : RenameTree) (ok : RPath → RPath → Bool) (st : FsState) :
    FsState × Except Fail (List RenameResult) :=
  t.run_with_fn (rename_file ok) st

/-- Build a tree from a builder and dry-run it on an empty filesystem log,
keeping only the resulting list (the driver pipeline of the spec's §2). -/
def buildDryList (b : RTBuilder) : Except Fail (List RenameResult) :=
  match RenameTree.build_from_builder b with
  | .error f => .error f
  | .ok t => (t.dry_run ⟨[]⟩).2

/-- A fresh engine with no default operations. -/
def eng0 : OperationEngine := OperationEngine.new [] []

/-- Example path d1/a.txt. -/
def exPathA : RPath := ⟨[strToR ("d1"), strToR ("a.txt")]⟩

/-- Example path d2/b.txt. -/
def exPathB : RPath := ⟨[strToR ("d2"), strToR ("b.txt")]⟩

/-- Example path c.txt. -/
def exPathC : RPath := ⟨[strToR ("c.txt")]⟩

/-- Example file record for d1/a.txt with no operations. -/
def exFileA : File := ⟨exPathA, [], exPathA⟩

/-- Example file record for d2/b.txt with no operations. -/
def exFileB : File := ⟨exPathB, [], exPathB⟩

/-- Example standalone file record for c.txt. -/
def exFileC : File := ⟨exPathC, [], exPathC⟩

/-- Example directory d1 containing a.txt, no operations. -/
def exDir1 : Dir := ⟨⟨[strToR ("d1")]⟩, false, [], [], [exFileA], true⟩

/-- Example directory d2 containing b.txt, no operations. -/
def exDir2 : Dir := ⟨⟨[strToR ("d2")]⟩, false, [], [], [exFileB], true⟩

/-- A two-directory run with one standalone file and no operations at all:
no file is removed by directory-operation filtering, so every one of the
three files remains. -/
def exBuilderC1 : RTBuilder := ⟨[exDir1, exDir2], [exFileC], [], []⟩

/-- The default directory rule of the C2 scenario. -/
def exKeepRule : MatchRule := .contains (strToR ("keep"))

/-- Example path d2/keep_b. -/
def exPathKeep : RPath := ⟨[strToR ("d2"), strToR ("keep_b")]⟩

/-- Example path d2/drop_x. -/
def exPathDrop : RPath := ⟨[strToR ("d2"), strToR ("drop_x")]⟩

/-- Example file record for d2/keep_b. -/
def exFileKeep : File := ⟨exPathKeep, [], exPathKeep⟩

/-- Example file record for d2/drop_x. -/
def exFileDrop : File := ⟨exPathDrop, [], exPathDrop⟩

/-- An empty first directory. -/
def exDirEmpty : Dir := ⟨⟨[strToR ("d1")]⟩, false, [], [], [], true⟩

/-- A second directory containing keep_b and drop_x, no own operations. -/
def exDirKD : Dir := ⟨⟨[strToR ("d2")]⟩, false, [], [], [exFileKeep, exFileDrop], true⟩

/-- A run whose engine-default directory operation IncludeOnly(Contains
"keep") should, per the spec, filter drop_x out of the second directory. -/
def exBuilderC2 : RTBuilder := ⟨[exDirEmpty, exDirKD], [], [.includeOnly exKeepRule], []⟩

/-- The same second directory as the only (first) directory of a run. -/
def exBuilderC2first : RTBuilder := ⟨[exDirKD], [], [.includeOnly exKeepRule], []⟩

/-- A tree with two records claiming the same source path. -/
def exDupTree : RenameTree := ⟨[], [⟨exPathA, [], exPathA⟩, ⟨exPathA, [], exPathB⟩]⟩

/-- A tree with pairwise distinct sources. -/
def exOkTree : RenameTree := ⟨[], [exFileA, exFileB]⟩

/-- The always-succeeding rename oracle. -/
def alwaysOk : RPath → RPath → Bool := fun _ _ => true

/-- An engine whose current file's destination has no extractable file
name (an empty component list, as for a root path). -/
def exEngineNoName : OperationEngine := { eng0 with files := [⟨exPathA, [], ⟨[]⟩⟩] }

/-- The variable name x. -/
def exNameX : RString := strToR ("x")

/-- The value v. -/
def exValV : RString := strToR ("v")

/-- An engine with one ordinary file, used by the frame witness. -/
def exEngineW9 : OperationEngine := { eng0 with files := [exFileA] }

/-- The engine expected after SetName(Constant "n") on exEngineW9. -/
def exEngineW9out : OperationEngine :=
  { exEngineW9 with files := [⟨exPathA, [], ⟨[strToR ("d1"), strToR ("n")]⟩⟩] }

/-- Expression evaluation leaves the file list and the cursor untouched:
the only engine mutation at the expression layer is set_variable. -/
theorem expr_execute_preserves : (x : Expression) → (e : OperationEngine) →
    (o : Option RString) → (e' : OperationEngine) → x.execute e = .ok (o, e') →
    e'.files = e.files ∧ e'.current_file = e.current_file
  | .constant v, e, o, e', h => by
    simp only [Expression.execute, Except.ok.injEq, Prod.mk.injEq] at h
    obtain ⟨-, he⟩ := h
    subst he; exact ⟨rfl, rfl⟩
  | .variableExpr var, e, o, e', h => by
    simp only [Expression.execute] at h
    split at h
    · simp only [Except.ok.injEq, Prod.mk.injEq] at h
      obtain ⟨-, he⟩ := h; subst he; exact ⟨rfl, rfl⟩
    · exact Except.noConfusion h
  | .assignVariable var value, e, o, e', h => by
    simp only [Expression.execute] at h
    split at h
    next f heq => exact Except.noConfusion h
    next e1 heq =>
      simp only [Except.ok.injEq, Prod.mk.injEq] at h
      obtain ⟨-, he⟩ := h; subst he
      exact expr_execute_preserves value e none e1 heq
    next v e1 heq =>
      simp only [Except.ok.injEq, Prod.mk.injEq] at h
      obtain ⟨-, he⟩ := h; subst he
      exact expr_execute_preserves value e (some v) e1 heq
  | .combine lhs rhs, e, o, e', h => by
    simp only [Expression.execute] at h
    split at h
    next f heq => exact Except.noConfusion h
    next e1 heq =>
      have ihl := expr_execute_preserves lhs e none e1 heq
      have ihr := expr_execute_preserves rhs e1 o e' h
      exact ⟨ihr.1.trans ihl.1, ihr.2.trans ihl.2⟩
    next l e1 heq =>
      have ihl := expr_execute_preserves lhs e (some l) e1 heq
      split at h
      next f heq2 => exact Except.noConfusion h
      next e2 heq2 =>
        have ihr := expr_execute_preserves rhs e1 none e2 heq2
        simp only [Except.ok.injEq, Prod.mk.injEq] at h
        obtain ⟨-, he⟩ := h; subst he
        exact ⟨ihr.1.trans ihl.1, ihr.2.trans ihl.2⟩
      next r e2 heq2 =>
        have ihr := expr_execute_preserves rhs e1 (some r) e2 heq2
        simp only [Except.ok.injEq, Prod.mk.injEq] at h
        obtain ⟨-, he⟩ := h; subst he
        exact ⟨ihr.1.trans ihl.1, ihr.2.trans ihl.2⟩
  | .toUpperCase input, e, o, e', h => by
    simp only [Expression.execute] at h
    split at h
    next f heq => exact Except.noConfusion h
    next oi e1 heq =>
      simp only [Except.ok.injEq, Prod.mk.injEq] at h
      obtain ⟨-, he⟩ := h; subst he
      exact expr_execute_preserves input e oi e1 heq
  | .toLowerCase input, e, o, e', h => by
    simp only [Expression.execute] at h
    split at h
    next f heq => exact Except.noConfusion h
    next oi e1 heq =>
      simp only [Except.ok.injEq, Prod.mk.injEq] at h
      obtain ⟨-, he⟩ := h; subst he
      exact expr_execute_preserves input e oi e1 heq
  | .convertCase case input, e, o, e', h => by
    simp only [Expression.execute] at h
    split at h
    next f heq => exact Except.noConfusion h
    next oi e1 heq =>
      simp only [Except.ok.injEq, Prod.mk.injEq] at h
      obtain ⟨-, he⟩ := h; subst he
      exact expr_execute_preserves input e oi e1 heq
  | .left input match_str inclusive, e, o, e', h => by
    simp only [Expression.execute] at h
    split at h
    next f heq => exact Except.noConfusion h
    next e1 heq =>
      simp only [Except.ok.injEq, Prod.mk.injEq] at h
      obtain ⟨-, he⟩ := h; subst he
      exact expr_execute_preserves input e none e1 heq
    next i e1 heq =>
      have ihi := expr_execute_preserves input e (some i) e1 heq
      split at h
      next f heq2 => exact Except.noConfusion h
      next e2 heq2 =>
        have ihm := expr_execute_preserves match_str e1 none e2 heq2
        simp only [Except.ok.injEq, Prod.mk.injEq] at h
        obtain ⟨-, he⟩ := h; subst he
        exact ⟨ihm.1.trans ihi.1, ihm.2.trans ihi.2⟩
      next m e2 heq2 =>
        have ihm := expr_execute_preserves match_str e1 (some m) e2 heq2
        have comp : e2.files = e.files ∧ e2.current_file = e.current_file :=
          ⟨ihm.1.trans ihi.1, ihm.2.trans ihi.2⟩
        repeat' split at h
        all_goals first
          | exact Except.noConfusion h
          | (simp only [Except.ok.injEq, Prod.mk.injEq] at h
             obtain ⟨-, he⟩ := h; subst he; exact comp)
  | .right input match_str inclusive, e, o, e', h => by
    simp only [Expression.execute] at h
    split at h
    next f heq => exact Except.noConfusion h
    next e1 heq =>
      simp only [Except.ok.injEq, Prod.mk.injEq] at h
      obtain ⟨-, he⟩ := h; subst he
      exact expr_execute_preserves input e none e1 heq
    next i e1 heq =>
      have ihi := expr_execute_preserves input e (some i) e1 heq
      split at h
      next f heq2 => exact Except.noConfusion h
      next e2 heq2 =>
        have ihm := expr_execute_preserves match_str e1 none e2 heq2
        simp only [Except.ok.injEq, Prod.mk.injEq] at h
        obtain ⟨-, he⟩ := h; subst he
        exact ⟨ihm.1.trans ihi.1, ihm.2.trans ihi.2⟩
      next m e2 heq2 =>
        have ihm := expr_execute_preserves match_str e1 (some m) e2 heq2
        have comp : e2.files = e.files ∧ e2.current_file = e.current_file :=
          ⟨ihm.1.trans ihi.1, ihm.2.trans ihi.2⟩
        repeat' split at h
        all_goals first
          | exact Except.noConfusion h
          | (simp only [Except.ok.injEq, Prod.mk.injEq] at h
             obtain ⟨-, he⟩ := h; subst he; exact comp)
  | .fileName, e, o, e', h => by
    simp only [Expression.execute] at h
    split at h
    next heq => exact Except.noConfusion h
    next f heq =>
      simp only [Except.ok.injEq, Prod.mk.injEq] at h
      obtain ⟨-, he⟩ := h; subst he; exact ⟨rfl, rfl⟩
  | .fileExtension, e, o, e', h => by
    simp only [Expression.execute] at h
    split at h
    next heq => exact Except.noConfusion h
    next f heq =>
      simp only [Except.ok.injEq, Prod.mk.injEq] at h
      obtain ⟨-, he⟩ := h; subst he; exact ⟨rfl, rfl⟩
  | .ifExpr condition then_expr none, e, o, e', h => by
    simp only [Expression.execute] at h
    split at h
    next heq => exact Except.noConfusion h
    next f heq =>
      split at h
      next heq2 => exact Except.noConfusion h
      next nm heq2 =>
        split at h
        next heq3 => exact Except.noConfusion h
        next heq3 => exact expr_execute_preserves then_expr e o e' h
        next heq3 =>
          simp only [Except.ok.injEq, Prod.mk.injEq] at h
          obtain ⟨-, he⟩ := h; subst he; exact ⟨rfl, rfl⟩
  | .ifExpr condition then_expr (some else_branch), e, o, e', h => by
    simp only [Expression.execute] at h
    split at h
    next heq => exact Except.noConfusion h
    next f heq =>
      split at h
      next heq2 => exact Except.noConfusion h
      next nm heq2 =>
        split at h
        next heq3 => exact Except.noConfusion h
        next heq3 => exact expr_execute_preserves then_expr e o e' h
        next heq3 => exact expr_execute_preserves else_branch e o e' h
  | .insert position base insertion_text, e, o, e', h => by
    simp only [Expression.execute] at h
    split at h
    next f heq => exact Except.noConfusion h
    next e1 heq =>
      simp only [Except.ok.injEq, Prod.mk.injEq] at h
      obtain ⟨-, he⟩ := h; subst he
      exact expr_execute_preserves base e none e1 heq
    next b e1 heq =>
      have ihb := expr_execute_preserves base e (some b) e1 heq
      split at h
      next f heq2 => exact Except.noConfusion h
      next e2 heq2 =>
        have ihi := expr_execute_preserves insertion_text e1 none e2 heq2
        simp only [Except.ok.injEq, Prod.mk.injEq] at h
        obtain ⟨-, he⟩ := h; subst he
        exact ⟨ihi.1.trans ihb.1, ihi.2.trans ihb.2⟩
      next it e2 heq2 =>
        have ihi := expr_execute_preserves insertion_text e1 (some it) e2 heq2
        have comp : e2.files = e.files ∧ e2.current_file = e.current_file :=
          ⟨ihi.1.trans ihb.1, ihi.2.trans ihb.2⟩
        repeat' split at h
        all_goals first
          | exact Except.noConfusion h
          | (simp only [Except.ok.injEq, Prod.mk.injEq] at h
             obtain ⟨-, he⟩ := h; subst he; exact comp)
  | .replace content selection match_str replacement, e, o, e', h => by
    simp only [Expression.execute] at h
    split at h
    next f heq => exact Except.noConfusion h
    next e1 heq =>
      simp only [Except.ok.injEq, Prod.mk.injEq] at h
      obtain ⟨-, he⟩ := h; subst he
      exact expr_execute_preserves content e none e1 heq
    next input e1 heq =>
      have ihc := expr_execute_preserves content e (some input) e1 heq
      split at h
      next f heq2 => exact Except.noConfusion h
      next e2 heq2 =>
        have ihm := expr_execute_preserves match_str e1 none e2 heq2
        simp only [Except.ok.injEq, Prod.mk.injEq] at h
        obtain ⟨-, he⟩ := h; subst he
        exact ⟨ihm.1.trans ihc.1, ihm.2.trans ihc.2⟩
      next mtch e2 heq2 =>
        have ihm := expr_execute_preserves match_str e1 (some mtch) e2 heq2
        have comp2 : e2.files = e.files ∧ e2.current_file = e.current_file :=
          ⟨ihm.1.trans ihc.1, ihm.2.trans ihc.2⟩
        split at h
        next f heq3 => exact Except.noConfusion h
        next e3 heq3 =>
          have ihr := expr_execute_preserves replacement e2 none e3 heq3
          simp only [Except.ok.injEq, Prod.mk.injEq] at h
          obtain ⟨-, he⟩ := h; subst he
          exact ⟨ihr.1.trans comp2.1, ihr.2.trans comp2.2⟩
        next repl e3 heq3 =>
          have ihr := expr_execute_preserves replacement e2 (some repl) e3 heq3
          have comp3 : e3.files = e.files ∧ e3.current_file = e.current_file :=
            ⟨ihr.1.trans comp2.1, ihr.2.trans comp2.2⟩
          repeat' split at h
          all_goals first
            | exact Except.noConfusion h
            | (simp only [Except.ok.injEq, Prod.mk.injEq] at h
               obtain ⟨-, he⟩ := h; subst he; exact comp3)

/-- Setting the destination of the record at index i does not change the
list of sources. -/
theorem files_set_same_source : (l : List File) → (i : Nat) → (f : File) →
    (d : RPath) → l[i]? = some f →
    (l.set i { f with destination := d }).map (fun x => x.source) =
      l.map (fun x => x.source)
  | [], i, f, d, h => by simp at h
  | x :: rest, 0, f, d, h => by
    simp only [List.getElem?_cons_zero, Option.some.injEq] at h
    subst h; simp
  | x :: rest, i + 1, f, d, h => by
    simp only [List.getElem?_cons_succ] at h
    simp only [List.set_cons_succ, List.map_cons]
    rw [files_set_same_source rest i f d h]

/-- File operations leave every record's source and the cursor untouched:
only the current record's destination (and, through expressions, the
variable table) is mutated. -/
theorem fileop_execute_preserves : (op : FileOperation) → (e : OperationEngine) →
    (b : Bool) → (e' : OperationEngine) → op.execute e = .ok (b, e') →
    e'.files.map (fun f => f.source) = e.files.map (fun f => f.source) ∧
      e'.current_file = e.current_file
  | .noOp expression, e, b, e', h => by
    simp only [FileOperation.execute] at h
    split at h
    next f heq => exact Except.noConfusion h
    next o1 e1 heq =>
      simp only [Except.ok.injEq, Prod.mk.injEq] at h
      obtain ⟨-, he⟩ := h; subst he
      have hp := expr_execute_preserves expression e o1 e1 heq
      exact ⟨by rw [hp.1], hp.2⟩
  | .ifOperation condition then_op none, e, b, e', h => by
    simp only [FileOperation.execute] at h
    split at h
    next heq => exact Except.noConfusion h
    next f heq =>
      split at h
      next heq2 => exact Except.noConfusion h
      next heq2 => exact fileop_execute_preserves then_op e b e' h
      next heq2 =>
        simp only [Except.ok.injEq, Prod.mk.injEq] at h
        obtain ⟨-, he⟩ := h; subst he; exact ⟨rfl, rfl⟩
  | .ifOperation condition then_op (some else_branch), e, b, e', h => by
    simp only [FileOperation.execute] at h
    split at h
    next heq => exact Except.noConfusion h
    next f heq =>
      split at h
      next heq2 => exact Except.noConfusion h
      next heq2 => exact fileop_execute_preserves then_op e b e' h
      next heq2 => exact fileop_execute_preserves else_branch e b e' h
  | .setName name, e, b, e', h => by
    simp only [FileOperation.execute] at h
    split at h
    next f heq => exact Except.noConfusion h
    next e1 heq =>
      simp only [Except.ok.injEq, Prod.mk.injEq] at h
      obtain ⟨-, he⟩ := h; subst he
      have hp := expr_execute_preserves name e none e1 heq
      exact ⟨by rw [hp.1], hp.2⟩
    next nm e1 heq =>
      have hp := expr_execute_preserves name e (some nm) e1 heq
      split at h
      next heq2 => exact Except.noConfusion h
      next f heq2 =>
        simp only [Except.ok.injEq, Prod.mk.injEq] at h
        obtain ⟨-, he⟩ := h; subst he
        refine ⟨?_, hp.2⟩
        have hset := files_set_same_source e1.files e1.current_file f
          (f.destination.setFileName nm) heq2
        exact hset.trans (by rw [hp.1])
  | .setStem stem, e, b, e', h => by
    simp only [FileOperation.execute] at h
    split at h
    next f heq => exact Except.noConfusion h
    next e1 heq =>
      simp only [Except.ok.injEq, Prod.mk.injEq] at h
      obtain ⟨-, he⟩ := h; subst he
      have hp := expr_execute_preserves stem e none e1 heq
      exact ⟨by rw [hp.1], hp.2⟩
    next nm e1 heq =>
      have hp := expr_execute_preserves stem e (some nm) e1 heq
      split at h
      next heq2 => exact Except.noConfusion h
      next f heq2 =>
        split at h
        next ext heq3 =>
          simp only [Except.ok.injEq, Prod.mk.injEq] at h
          obtain ⟨-, he⟩ := h; subst he
          refine ⟨?_, hp.2⟩
          have hset := files_set_same_source e1.files e1.current_file f
            (f.destination.setFileName (nm ++ [46] ++ ext)) heq2
          exact hset.trans (by rw [hp.1])
        next heq3 =>
          simp only [Except.ok.injEq, Prod.mk.injEq] at h
          obtain ⟨-, he⟩ := h; subst he
          refine ⟨?_, hp.2⟩
          have hset := files_set_same_source e1.files e1.current_file f
            (f.destination.setFileName nm) heq2
          exact hset.trans (by rw [hp.1])
  | .setExtension extension, e, b, e', h => by
    simp only [FileOperation.execute] at h
    split at h
    next f heq => exact Except.noConfusion h
    next e1 heq =>
      simp only [Except.ok.injEq, Prod.mk.injEq] at h
      obtain ⟨-, he⟩ := h; subst he
      have hp := expr_execute_preserves extension e none e1 heq
      exact ⟨by rw [hp.1], hp.2⟩
    next ext e1 heq =>
      have hp := expr_execute_preserves extension e (some ext) e1 heq
      split at h
      next heq2 => exact Except.noConfusion h
      next f heq2 =>
        simp only [Except.ok.injEq, Prod.mk.injEq] at h
        obtain ⟨-, he⟩ := h; subst he
        refine ⟨?_, hp.2⟩
        have hset := files_set_same_source e1.files e1.current_file f
          (f.destination.setExtension ext) heq2
        exact hset.trans (by rw [hp.1])

/-- Sequential file-operation execution preserves sources and the cursor. -/
theorem run_file_ops_preserves : (ops : List FileOperation) →
    (e : OperationEngine) → (e' : OperationEngine) →
    OperationEngine.run_file_ops ops e = .ok e' →
    e'.files.map (fun f => f.source) = e.files.map (fun f => f.source) ∧
      e'.current_file = e.current_file
  | [], e, e', h => by
    simp only [OperationEngine.run_file_ops, Except.ok.injEq] at h
    subst h; exact ⟨rfl, rfl⟩
  | op :: rest, e, e', h => by
    simp only [OperationEngine.run_file_ops] at h
    split at h
    next f heq => exact Except.noConfusion h
    next b e1 heq =>
      have h1 := fileop_execute_preserves op e b e1 heq
      have h2 := run_file_ops_preserves rest e1 e' h
      exact ⟨h2.1.trans h1.1, h2.2.trans h1.2⟩

/-- run_file preserves the sources and the cursor (the increments touch
only the two indices). -/
theorem run_file_preserves (e e' : OperationEngine) (h : e.run_file = .ok e') :
    e'.files.map (fun f => f.source) = e.files.map (fun f => f.source) ∧
      e'.current_file = e.current_file := by
  simp only [OperationEngine.run_file] at h
  split at h
  next f heq => exact Except.noConfusion h
  next e1 heq =>
    have h1 := run_file_ops_preserves e.file_operations e e1 heq
    split at h
    next heq2 => exact Except.noConfusion h
    next f heq2 =>
      split at h
      next fl heq3 => exact Except.noConfusion h
      next e2 heq3 =>
        have h2 := run_file_ops_preserves f.ops e1 e2 heq3
        simp only [Except.ok.injEq] at h
        subst h
        exact ⟨h2.1.trans h1.1, h2.2.trans h1.2⟩

/-- Fuel adequacy for the run_files loop: any fuel at least the remaining
trip count files.length - current_file gives the behaviour of the exact
count used by run_files, so the fuel encoding of the source's while loop
is faithful. -/
theorem run_files_loop_fuel : ∀ (fuel : Nat) (e : OperationEngine),
    e.files.length - e.current_file ≤ fuel →
    OperationEngine.run_files_loop fuel e =
      OperationEngine.run_files_loop (e.files.length - e.current_file) e := by
  intro fuel
  induction fuel with
  | zero =>
    intro e hb
    have h0 : e.files.length - e.current_file = 0 := Nat.le_zero.mp hb
    rw [h0]
  | succ n ih =>
    intro e hb
    by_cases hc : e.current_file < e.files.length
    · have hd : e.files.length - e.current_file =
          (e.files.length - (e.current_file + 1)) + 1 := by omega
      rw [hd]
      simp only [OperationEngine.run_files_loop, if_pos hc]
      cases hr : e.run_file with
      | error f => rfl
      | ok e1 =>
        have hp := run_file_preserves e e1 hr
        have hlen : e1.files.length = e.files.length := by
          have := congrArg List.length hp.1
          simpa using this
        have harg :
            ({ e1 with current_file := e1.current_file + 1 } :
              OperationEngine).files.length -
            ({ e1 with current_file := e1.current_file + 1 } :
              OperationEngine).current_file =
            e.files.length - (e.current_file + 1) := by
          simp only []
          rw [hlen, hp.2]
        rw [← harg]
        exact ih _ (by rw [harg]; omega)
    · have hd : e.files.length - e.current_file = 0 := by omega
      rw [hd]
      simp only [OperationEngine.run_files_loop, if_neg hc]

/-- Membership after inserting into a sorted list. -/
theorem mem_insertSorted : (le : File → File → Bool) → (f x : File) →
    (l : List File) → x ∈ insertSorted le f l → x = f ∨ x ∈ l
  | le, f, x, [], h => by
    simp only [insertSorted, List.mem_singleton] at h
    exact Or.inl h
  | le, f, x, g :: rest, h => by
    simp only [insertSorted] at h
    split at h
    · rcases List.mem_cons.mp h with h1 | h1
      · exact Or.inl h1
      · exact Or.inr h1
    · rcases List.mem_cons.mp h with h1 | h1
      · exact Or.inr (List.mem_cons.mpr (Or.inl h1))
      · rcases mem_insertSorted le f x rest h1 with h2 | h2
        · exact Or.inl h2
        · exact Or.inr (List.mem_cons.mpr (Or.inr h2))

/-- The sort model only permutes: every output record is an input record. -/
theorem mem_sortFiles : (le : File → File → Bool) → (x : File) →
    (l : List File) → x ∈ sortFiles le l → x ∈ l
  | le, x, [], h => by simp only [sortFiles] at h; exact h
  | le, x, f :: rest, h => by
    simp only [sortFiles] at h
    rcases mem_insertSorted le f x (sortFiles le rest) h with h1 | h1
    · exact h1 ▸ List.mem_cons_self f rest
    · exact List.mem_cons.mpr (Or.inr (mem_sortFiles le x rest h1))

/-- Remove / IncludeOnly only drop records: every survivor is an input
record, unchanged. -/
theorem filterFilesByRule_mem : (rule : MatchRule) → (k : Bool) →
    (l res : List File) → filterFilesByRule rule k l = .ok res →
    ∀ x ∈ res, x ∈ l
  | rule, k, [], res, h => by
    simp only [filterFilesByRule, Except.ok.injEq] at h
    subst h; intro x hx; exact absurd hx (List.not_mem_nil x)
  | rule, k, f :: rest, res, h => by
    simp only [filterFilesByRule] at h
    split at h
    next heq => exact Except.noConfusion h
    next nm heq =>
      split at h
      next heq2 => exact Except.noConfusion h
      next bv heq2 =>
        split at h
        next fl heq3 => exact Except.noConfusion h
        next tl heq3 =>
          simp only [Except.ok.injEq] at h
          subst h
          intro x hx
          by_cases hk : bv = k
          · rw [if_pos hk] at hx
            rcases List.mem_cons.mp hx with h1 | h1
            · exact h1 ▸ List.mem_cons_self f rest
            · exact List.mem_cons.mpr
                (Or.inr (filterFilesByRule_mem rule k rest tl heq3 x h1))
          · rw [if_neg hk] at hx
            exact List.mem_cons.mpr
              (Or.inr (filterFilesByRule_mem rule k rest tl heq3 x hx))

/-- One UTF-8 byte at least per code point. -/
theorem utf8Width_pos (c : RChar) : 1 ≤ utf8Width c := by
  simp only [utf8Width]
  split_ifs <;> omega

/-- byteLen distributes over cons. -/
theorem byteLen_cons (c : RChar) (s : RString) :
    byteLen (c :: s) = utf8Width c + byteLen s := by
  simp [byteLen]

/-- The zero byte slice always succeeds. -/
theorem sliceTo_zero (s : RString) : sliceTo s 0 = some [] := by
  cases s <;> rfl

/-- Slicing up to the full byte length returns the whole string. -/
theorem sliceTo_byteLen : ∀ (s : RString), sliceTo s (byteLen s) = some s
  | [] => rfl
  | c :: rest => by
    have hw := utf8Width_pos c
    obtain ⟨m, hm⟩ : ∃ m, byteLen (c :: rest) = m + 1 :=
      ⟨byteLen (c :: rest) - 1, by rw [byteLen_cons]; omega⟩
    rw [hm]
    simp only [sliceTo]
    rw [if_pos (by rw [byteLen_cons] at hm; omega)]
    have harg : m + 1 - utf8Width c = byteLen rest := by
      rw [byteLen_cons] at hm; omega
    rw [harg, sliceTo_byteLen rest]
    rfl

/-- Slicing from the full byte length returns the empty string. -/
theorem sliceFrom_byteLen : ∀ (s : RString), sliceFrom s (byteLen s) = some []
  | [] => rfl
  | c :: rest => by
    have hw := utf8Width_pos c
    obtain ⟨m, hm⟩ : ∃ m, byteLen (c :: rest) = m + 1 :=
      ⟨byteLen (c :: rest) - 1, by rw [byteLen_cons]; omega⟩
    rw [hm]
    simp only [sliceFrom]
    rw [if_pos (by rw [byteLen_cons] at hm; omega)]
    have harg : m + 1 - utf8Width c = byteLen rest := by
      rw [byteLen_cons] at hm; omega
    rw [harg]
    exact sliceFrom_byteLen rest

/-- On ASCII strings every in-range byte index is a char boundary: the
prefix slice succeeds. -/
theorem sliceTo_isSome_of_ascii : ∀ (s : RString) (k : Nat), allAscii s →
    k ≤ byteLen s → (sliceTo s k).isSome
  | s, 0, _, _ => by rw [sliceTo_zero]; rfl
  | [], k + 1, _, hk => by
    simp [byteLen] at hk
  | c :: rest, k + 1, ha, hk => by
    have hc : c < 128 := ha c (List.mem_cons_self c rest)
    have hw : utf8Width c = 1 := by simp [utf8Width, hc]
    simp only [sliceTo]
    rw [if_pos (by omega)]
    have hrest : (sliceTo rest (k + 1 - utf8Width c)).isSome := by
      apply sliceTo_isSome_of_ascii rest (k + 1 - utf8Width c)
        (fun x hx => ha x (List.mem_cons.mpr (Or.inr hx)))
      rw [byteLen_cons, hw] at hk
      omega
    cases hs : sliceTo rest (k + 1 - utf8Width c) with
    | none => rw [hs] at hrest; exact absurd hrest (by simp)
    | some t => simp [hs]

/-- On ASCII strings every in-range byte index is a char boundary: the
suffix slice succeeds. -/
theorem sliceFrom_isSome_of_ascii : ∀ (s : RString) (k : Nat), allAscii s →
    k ≤ byteLen s → (sliceFrom s k).isSome
  | s, 0, _, _ => by cases s <;> rfl
  | [], k + 1, _, hk => by
    simp [byteLen] at hk
  | c :: rest, k + 1, ha, hk => by
    have hc : c < 128 := ha c (List.mem_cons_self c rest)
    have hw : utf8Width c = 1 := by simp [utf8Width, hc]
    simp only [sliceFrom]
    rw [if_pos (by omega)]
    apply sliceFrom_isSome_of_ascii rest (k + 1 - utf8Width c)
      (fun x hx => ha x (List.mem_cons.mpr (Or.inr hx)))
    rw [byteLen_cons, hw] at hk
    omega

/-- Inserting at the clamped full length appends the insertion text. -/
theorem rustInsertStr_byteLen (b it : RString) :
    rustInsertStr b (byteLen b) it = some (b ++ it) := by
  simp [rustInsertStr, sliceTo_byteLen, sliceFrom_byteLen]

/-- The dry rename loop never changes the filesystem state. -/
theorem dry_go_fst : ∀ (files : List File) (fs : List RPath) (st : FsState),
    (runWithFnGo dry_rename_file fs files st).1 = st
  | [], fs, st => rfl
  | f :: rest, fs, st => by
    simp only [runWithFnGo]
    by_cases hm : f.source ∈ fs
    · rw [if_pos hm]
    · rw [if_neg hm]
      have ih := dry_go_fst rest (f.source :: fs) st
      cases hrec : runWithFnGo dry_rename_file (f.source :: fs) rest st with
      | mk st2 r =>
        rw [hrec] at ih
        cases r with
        | error fl => simpa [dry_rename_file, hrec] using ih
        | ok rs => simpa [dry_rename_file, hrec] using ih

/-- The result list of the dry rename loop does not depend on the
filesystem state. -/
theorem dry_go_snd : ∀ (files : List File) (fs : List RPath) (st st' : FsState),
    (runWithFnGo dry_rename_file fs files st).2 =
      (runWithFnGo dry_rename_file fs files st').2
  | [], fs, st, st' => rfl
  | f :: rest, fs, st, st' => by
    simp only [runWithFnGo]
    by_cases hm : f.source ∈ fs
    · rw [if_pos hm, if_pos hm]
    · rw [if_neg hm, if_neg hm]
      have ih := dry_go_snd rest (f.source :: fs) st st'
      simp only [dry_rename_file]
      cases hrec : runWithFnGo dry_rename_file (f.source :: fs) rest st with
      | mk st2 r =>
        cases hrec' : runWithFnGo dry_rename_file (f.source :: fs) rest st' with
        | mk st3 r' =>
          rw [hrec, hrec'] at ih
          simp only at ih
          subst ih
          cases r with
          | error fl => rfl
          | ok rs => rfl

/-- Whenever the real rename loop succeeds, the dry loop from the same
start produces the same result list and leaves the state alone: a
successful rename_file call returns exactly the echoed (source,
destination) pair. -/
theorem run_ok_imp_dry_go : ∀ (files : List File) (fs : List RPath)
    (st : FsState) (ok : RPath → RPath → Bool) (st2 : FsState)
    (l : List RenameResult),
    runWithFnGo (rename_file ok) fs files st = (st2, .ok l) →
    runWithFnGo dry_rename_file fs files st = (st, .ok l)
  | [], fs, st, ok, st2, l, h => by
    simp only [runWithFnGo, Prod.mk.injEq, Except.ok.injEq] at h
    rw [← h.2]
    rfl
  | f :: rest, fs, st, ok, st2, l, h => by
    by_cases hm : f.source ∈ fs
    · simp only [runWithFnGo, if_pos hm, Prod.mk.injEq] at h
      exact absurd h.2 (by simp)
    · by_cases hok : ok f.source f.destination
      · simp only [runWithFnGo, if_neg hm, rename_file, if_pos hok] at h
        cases hrec : runWithFnGo (rename_file ok) (f.source :: fs) rest
            { renames := st.renames ++ [(f.source, f.destination)] } with
        | mk st3 r =>
          rw [hrec] at h
          cases r with
          | error fl =>
            simp only [Prod.mk.injEq] at h
            exact absurd h.2 (by simp)
          | ok rs =>
            simp only [Prod.mk.injEq, Except.ok.injEq] at h
            have ihdry := run_ok_imp_dry_go rest (f.source :: fs)
              { renames := st.renames ++ [(f.source, f.destination)] } ok st3 rs hrec
            have hfst := dry_go_fst rest (f.source :: fs) st
            have hsnd := dry_go_snd rest (f.source :: fs) st
              { renames := st.renames ++ [(f.source, f.destination)] }
            rw [ihdry] at hsnd
            cases hrec2 : runWithFnGo dry_rename_file (f.source :: fs) rest st with
            | mk st4 r2 =>
              rw [hrec2] at hfst hsnd
              have ha : st4 = st := hfst
              have hb : r2 = .ok rs := hsnd
              subst ha; subst hb
              simp only [runWithFnGo, if_neg hm, dry_rename_file, hrec2]
              rw [← h.2]
      · simp only [runWithFnGo, if_neg hm, rename_file, if_neg hok,
          Prod.mk.injEq] at h
        exact absurd h.2 (by simp)

/-- A record clashing with the seen-set or an earlier record makes the dry
loop end in the duplicate-source error. -/
theorem dry_go_dup : ∀ (files : List File) (fs : List RPath) (st : FsState),
    (∃ j g, files[j]? = some g ∧ (g.source ∈ fs ∨
      g.source ∈ (files.take j).map (fun x => x.source))) →
    ∃ s, (runWithFnGo dry_rename_file fs files st).2 =
      .error (.error (.duplicateFileError s))
  | [], fs, st, hx => by
    obtain ⟨j, g, hj, -⟩ := hx
    simp at hj
  | f :: rest, fs, st, hx => by
    by_cases hm : f.source ∈ fs
    · refine ⟨f.source.display, ?_⟩
      simp [runWithFnGo, hm]
    · obtain ⟨j, g, hj, hca⟩ := hx
      have hx' : ∃ j g, rest[j]? = some g ∧ (g.source ∈ f.source :: fs ∨
          g.source ∈ (rest.take j).map (fun x => x.source)) := by
        cases j with
        | zero =>
          simp only [List.getElem?_cons_zero, Option.some.injEq] at hj
          subst hj
          rcases hca with hca | hca
          · exact absurd hca hm
          · simp at hca
        | succ j' =>
          simp only [List.getElem?_cons_succ] at hj
          refine ⟨j', g, hj, ?_⟩
          rcases hca with hca | hca
          · exact Or.inl (List.mem_cons.mpr (Or.inr hca))
          · simp only [List.take_succ_cons, List.map_cons, List.mem_cons] at hca
            rcases hca with hca | hca
            · exact Or.inl (List.mem_cons.mpr (Or.inl hca))
            · exact Or.inr hca
      obtain ⟨s, hs⟩ := dry_go_dup rest (f.source :: fs) st hx'
      refine ⟨s, ?_⟩
      cases hrec : runWithFnGo dry_rename_file (f.source :: fs) rest st with
      | mk st2 r =>
        rw [hrec] at hs
        simp only [runWithFnGo, if_neg hm, dry_rename_file, hrec]
        cases r with
        | error fl => exact hs
        | ok rs => exact absurd hs (by simp)

/-- With the always-succeeding oracle, a clash makes the real rename loop
end in the duplicate-source error, having performed exactly the renames of
the records before the clashing record: the clashing record itself is not
renamed. -/
theorem run_go_dup : ∀ (files : List File) (fs : List RPath) (st : FsState),
    (∃ j g, files[j]? = some g ∧ (g.source ∈ fs ∨
      g.source ∈ (files.take j).map (fun x => x.source))) →
    ∃ k f', files[k]? = some f' ∧
      (f'.source ∈ fs ∨ f'.source ∈ (files.take k).map (fun x => x.source)) ∧
      runWithFnGo (rename_file alwaysOk) fs files st =
        ({ renames := st.renames ++
            ((files.take k).map (fun g => (g.source, g.destination))) },
         .error (.error (.duplicateFileError f'.source.display)))
  | [], fs, st, hx => by
    obtain ⟨j, g, hj, -⟩ := hx
    simp at hj
  | f :: rest, fs, st, hx => by
    by_cases hm : f.source ∈ fs
    · refine ⟨0, f, by simp, Or.inl hm, ?_⟩
      simp only [runWithFnGo, if_pos hm, List.take_zero, List.map_nil,
        List.append_nil]
    · obtain ⟨j, g, hj, hca⟩ := hx
      have hx' : ∃ j g, rest[j]? = some g ∧ (g.source ∈ f.source :: fs ∨
          g.source ∈ (rest.take j).map (fun x => x.source)) := by
        cases j with
        | zero =>
          simp only [List.getElem?_cons_zero, Option.some.injEq] at hj
          subst hj
          rcases hca with hca | hca
          · exact absurd hca hm
          · simp at hca
        | succ j' =>
          simp only [List.getElem?_cons_succ] at hj
          refine ⟨j', g, hj, ?_⟩
          rcases hca with hca | hca
          · exact Or.inl (List.mem_cons.mpr (Or.inr hca))
          · simp only [List.take_succ_cons, List.map_cons, List.mem_cons] at hca
            rcases hca with hca | hca
            · exact Or.inl (List.mem_cons.mpr (Or.inl hca))
            · exact Or.inr hca
      obtain ⟨k', f', hk', hclash, hrec⟩ := run_go_dup rest (f.source :: fs)
        { renames := st.renames ++ [(f.source, f.destination)] } hx'
      refine ⟨k' + 1, f', by simpa using hk', ?_, ?_⟩
      · rcases hclash with hclash | hclash
        · rcases List.mem_cons.mp hclash with h1 | h1
          · exact Or.inr (by
              simp only [List.take_succ_cons, List.map_cons, List.mem_cons]
              exact Or.inl h1)
          · exact Or.inl h1
        · exact Or.inr (by
            simp only [List.take_succ_cons, List.map_cons, List.mem_cons]
            exact Or.inr hclash)
      · simp only [runWithFnGo, if_neg hm, rename_file, alwaysOk, if_pos, hrec]
        simp [List.take_succ_cons, List.append_assoc]

/-- When the rename primitive itself never reports a duplicate-source
error, a loop over records with pairwise distinct sources, none of which
is already claimed, never reports one either. -/
theorem go_no_dup_error :
    ∀ (rename : RPath → RPath → FsState → FsState × Except Fail RenameResult),
    (∀ s d stx p, (rename s d stx).2 ≠ .error (.error (.duplicateFileError p))) →
    ∀ (files : List File) (fs : List RPath) (st : FsState),
    (files.map (fun f => f.source)).Nodup →
    (∀ g ∈ files, g.source ∉ fs) →
    ∀ p, (runWithFnGo rename fs files st).2 ≠
      .error (.error (.duplicateFileError p))
  | rename, hrn, [], fs, st, hnd, hdisj, p => by
    simp [runWithFnGo]
  | rename, hrn, f :: rest, fs, st, hnd, hdisj, p => by
    have hm : f.source ∉ fs := hdisj f (List.mem_cons_self f rest)
    simp only [runWithFnGo, if_neg hm]
    cases hr : rename f.source f.destination st with
    | mk st1 res =>
      cases res with
      | error fl =>
        have := hrn f.source f.destination st p
        rw [hr] at this
        simpa using this
      | ok r =>
        cases hrec : runWithFnGo rename (f.source :: fs) rest st1 with
        | mk st2 res2 =>
          have hnd' : (rest.map (fun f => f.source)).Nodup :=
            (List.nodup_cons.mp hnd).2
          have hhead : f.source ∉ rest.map (fun f => f.source) :=
            (List.nodup_cons.mp hnd).1
          have hdisj' : ∀ g ∈ rest, g.source ∉ f.source :: fs := by
            intro g hg
            rw [List.mem_cons]
            push_neg
            constructor
            · intro hgf
              exact hhead (hgf ▸ List.mem_map_of_mem (fun f => f.source) hg)
            · exact hdisj g (List.mem_cons.mpr (Or.inr hg))
          have ih := go_no_dup_error rename hrn rest (f.source :: fs) st1
            hnd' hdisj' p
          rw [hrec] at ih
          cases res2 with
          | error fl2 => simpa [hrec] using ih
          | ok rs => simp [hrec]

/-- A non-Nodup list has a position whose element already occurred
earlier. -/
theorem exists_dup_of_not_nodup : ∀ (xs : List RPath), ¬ xs.Nodup →
    ∃ j x, xs[j]? = some x ∧ x ∈ xs.take j
  | [], h => absurd List.nodup_nil h
  | x :: rest, h => by
    by_cases hx : x ∈ rest
    · obtain ⟨i, hi⟩ := List.mem_iff_getElem?.mp hx
      refine ⟨i + 1, x, by simpa using hi, ?_⟩
      simp [List.take_succ_cons]
    · have hrest : ¬ rest.Nodup := by
        intro hnd
        exact h (List.nodup_cons.mpr ⟨hx, hnd⟩)
      obtain ⟨j, y, hj, hy⟩ := exists_dup_of_not_nodup rest hrest
      refine ⟨j + 1, y, by simpa using hj, ?_⟩
      simp only [List.take_succ_cons, List.mem_cons]
      exact Or.inr hy

/-- The witness of a source-level duplicate among file records. -/
theorem files_dup_witness (files : List File)
    (h : ¬ (files.map (fun f => f.source)).Nodup) :
    ∃ j g, files[j]? = some g ∧
      g.source ∈ (files.take j).map (fun x => x.source) := by
  obtain ⟨j, x, hj, hx⟩ := exists_dup_of_not_nodup _ h
  rw [List.getElem?_map] at hj
  cases hf : files[j]? with
  | none => rw [hf] at hj; exact absurd hj (by simp)
  | some g =>
    rw [hf] at hj
    simp only [Option.map_some', Option.some.injEq] at hj
    refine ⟨j, g, hf, ?_⟩
    rw [← List.map_take] at hx
    exact hj ▸ hx

/-- Claim C1 (code bug): the spec requires every file remaining after
directory-operation filtering — in every directory of the run, plus the
builder's standalone files — to contribute exactly one (source,
destination) pair.  The code violates this for any run with more than one
directory: run_files overwrites the engine's file list with the current
directory's files and never resets the current_file cursor, and
build_from_builder only validates the standalone files without adding
them.  Here a run over two directories holding a.txt and b.txt plus a
standalone c.txt — three remaining files, no filtering at all — dry-runs
to a single pair (b.txt, b.txt). -/
theorem c1_code_bug :
    buildDryList exBuilderC1 = .ok [{ source := exPathB, destination := exPathB }] ∧
    (catMap (fun d => d.contents) exBuilderC1.directories).map (fun f => f.source) =
      [exPathA, exPathB] ∧
    exBuilderC1.files.map (fun f => f.source) = [exPathC] ∧
    exPathA ≠ exPathB ∧ exPathA ≠ exPathC ∧ exPathB ≠ exPathC :=
  ⟨rfl, rfl, rfl, by decide, by decide, by decide⟩

/-- Claim C2 (code bug): the spec requires the engine's default directory
operations to run for every directory processed, before the directory's
own operations.  process_dir moves the default list out of the engine with
std::mem::take, so it is empty for the second and all later directories.
With the default operation IncludeOnly(Contains "keep"), an empty first
directory and a second directory holding keep_b and drop_x, the run keeps
drop_x — although the same directory processed first is filtered, and the
rule resolves to false on drop_x. -/
theorem c2_code_bug :
    buildDryList exBuilderC2 =
      .ok [{ source := exPathKeep, destination := exPathKeep },
           { source := exPathDrop, destination := exPathDrop }] ∧
    buildDryList exBuilderC2first =
      .ok [{ source := exPathKeep, destination := exPathKeep }] ∧
    MatchRule.resolve exKeepRule (strToR ("drop_x")) = some false ∧
    exBuilderC2.dir_ops = [.includeOnly exKeepRule] ∧
    exBuilderC2.directories.map (fun d => d.dir_ops.length) = [0, 0] :=
  ⟨rfl, rfl, rfl, rfl, rfl⟩

/-- Claim C5 counterexample: resolving BeginsWith("a") against the
two-byte haystack "é" panics in the source (byte index 1 is not a char
boundary of "é"), modelled as the none result — the claim's "never
panics" fails on multi-byte UTF-8 haystacks. -/
theorem c5_counterexample :
    MatchRule.resolve (.beginsWith (strToR ("a"))) (strToR ("é")) = none ∧
    byteLen (strToR ("a")) < byteLen (strToR ("é")) := by
  constructor
  · decide
  · decide

/-- Claim C5 as amended: Contains never panics for any strings; BeginsWith
and EndsWith never panic when the haystack is ASCII (in general they panic
exactly when the examined byte offset is not a char boundary); for all
strings the result is false whenever the needle is byte-longer than the
haystack, and true whenever the needle is empty. -/
theorem c5_amended :
    (∀ (p s : RString), (MatchRule.resolve (.contains p) s).isSome) ∧
    (∀ (p s : RString), allAscii s →
      (MatchRule.resolve (.beginsWith p) s).isSome ∧
      (MatchRule.resolve (.endsWith p) s).isSome) ∧
    (∀ (p s : RString), byteLen s < byteLen p →
      MatchRule.resolve (.contains p) s = some false ∧
      MatchRule.resolve (.beginsWith p) s = some false ∧
      MatchRule.resolve (.endsWith p) s = some false) ∧
    (∀ (s : RString),
      MatchRule.resolve (.contains []) s = some true ∧
      MatchRule.resolve (.beginsWith []) s = some true ∧
      MatchRule.resolve (.endsWith []) s = some true) := by
  refine ⟨?_, ?_, ?_, ?_⟩
  · intro p s
    simp only [MatchRule.resolve]
    split <;> simp
  · intro p s ha
    constructor
    · simp only [MatchRule.resolve]
      by_cases hlen : byteLen s < byteLen p
      · rw [if_pos hlen]; rfl
      · rw [if_neg hlen]
        have hs := sliceTo_isSome_of_ascii s (byteLen p) ha (by omega)
        cases hsl : sliceTo s (byteLen p) with
        | none => rw [hsl] at hs; exact absurd hs (by simp)
        | some t => simp [hsl]
    · simp only [MatchRule.resolve]
      by_cases hlen : byteLen s < byteLen p
      · rw [if_pos hlen]; rfl
      · rw [if_neg hlen]
        have hs := sliceFrom_isSome_of_ascii s (byteLen s - byteLen p) ha (by omega)
        cases hsl : sliceFrom s (byteLen s - byteLen p) with
        | none => rw [hsl] at hs; exact absurd hs (by simp)
        | some t => simp [hsl]
  · intro p s hlen
    refine ⟨?_, ?_, ?_⟩ <;> simp [MatchRule.resolve, if_pos hlen]
  · intro s
    refine ⟨?_, ?_, ?_⟩
    · have hfind : rustFind s [] = some 0 := by cases s <;> rfl
      simp [MatchRule.resolve, byteLen, hfind]
    · simp [MatchRule.resolve, byteLen, sliceTo_zero]
    · have h0 : byteLen ([] : RString) = 0 := rfl
      simp [MatchRule.resolve, h0, sliceFrom_byteLen]

/-- Witness for the amended C5 at concrete inputs: the ASCII and
longer-needle hypotheses hold and the theorem yields the stated results. -/
theorem c5_witness :
    allAscii (strToR ("bc")) ∧
    (MatchRule.resolve (.beginsWith (strToR ("a"))) (strToR ("bc"))).isSome = true ∧
    (MatchRule.resolve (.endsWith (strToR ("a"))) (strToR ("bc"))).isSome = true ∧
    byteLen (strToR ("c")) < byteLen (strToR ("ab")) ∧
    MatchRule.resolve (.contains (strToR ("ab"))) (strToR ("c")) = some false ∧
    MatchRule.resolve (.beginsWith (strToR ("ab"))) (strToR ("c")) = some false ∧
    MatchRule.resolve (.endsWith (strToR ("ab"))) (strToR ("c")) = some false :=
  ⟨by decide,
   (c5_amended.2.1 (strToR ("a")) (strToR ("bc")) (by decide)).1,
   (c5_amended.2.1 (strToR ("a")) (strToR ("bc")) (by decide)).2,
   by decide,
   (c5_amended.2.2.1 (strToR ("ab")) (strToR ("c")) (by decide)).1,
   (c5_amended.2.2.1 (strToR ("ab")) (strToR ("c")) (by decide)).2.1,
   (c5_amended.2.2.1 (strToR ("ab")) (strToR ("c")) (by decide)).2.2⟩

/-- Claim C6 counterexample: in ReplaceExpr::execute the unwrap_res_op!
on the content operand returns early, so when content is absent the match
operand is never evaluated and its variable assignment does not happen —
the engine comes back unchanged, though evaluating the same assignment
alone does extend the variable table.  (The current file's destination has
no file name component, so the FileName content operand is absent.) -/
theorem c6_counterexample :
    Expression.execute (.replace .fileName .first
        (.assignVariable exNameX (.constant exValV))
        (.constant (strToR ("w")))) exEngineNoName =
      .ok (none, exEngineNoName) ∧
    Expression.execute (.assignVariable exNameX (.constant exValV)) exEngineNoName =
      .ok (some exValV, exEngineNoName.set_variable exNameX exValV) ∧
    (exEngineNoName.set_variable exNameX exValV).vars ≠ exEngineNoName.vars :=
  ⟨rfl, rfl, by decide⟩

/-- Claim C6 as amended: Replace evaluates content, then matchExpr, then
replacementExpr, in that order, stopping at the first absent operand; the
overall result is absence whenever any operand of this sequence evaluates
to absence (operands after the first absent one are not evaluated). -/
theorem c6_amended : ∀ (c m r : Expression) (sel : Selection)
    (e e1 : OperationEngine),
    (c.execute e = .ok (none, e1) →
      (Expression.replace c sel m r).execute e = .ok (none, e1)) ∧
    (∀ cv e2, c.execute e = .ok (some cv, e1) → m.execute e1 = .ok (none, e2) →
      (Expression.replace c sel m r).execute e = .ok (none, e2)) ∧
    (∀ cv mv e2 e3, c.execute e = .ok (some cv, e1) →
      m.execute e1 = .ok (some mv, e2) → r.execute e2 = .ok (none, e3) →
      (Expression.replace c sel m r).execute e = .ok (none, e3)) := by
  intro c m r sel e e1
  refine ⟨?_, ?_, ?_⟩
  · intro h
    simp [Expression.execute, h]
  · intro cv e2 h1 h2
    simp [Expression.execute, h1, h2]
  · intro cv mv e2 e3 h1 h2 h3
    simp [Expression.execute, h1, h2, h3]

/-- Witness for the amended C6: an absent content operand (FileName on a
path with no name) makes the whole Replace absent. -/
theorem c6_witness :
    Expression.execute (.replace .fileName .first (.constant (strToR ("m")))
        (.constant (strToR ("r")))) exEngineNoName =
      .ok (none, exEngineNoName) :=
  (c6_amended .fileName (.constant (strToR ("m"))) (.constant (strToR ("r")))
    .first exEngineNoName exEngineNoName).1 rfl

/-- Claim C7 counterexample: the name global_index is absent from a fresh
engine's variable table (never written by any AssignVariable), yet
Variable("global_index") succeeds with the counter's rendering instead of
failing with VariableNotDefined. -/
theorem c7_counterexample :
    eng0.vars = [] ∧
    Expression.execute (.variableExpr global_index_name) eng0 =
      .ok (some (strToR ("0")), eng0) :=
  ⟨rfl, rfl⟩

/-- Claim C7 as amended: Variable(name) fails with VariableNotDefined iff
name is neither of the reserved index names and is missing from the
variable table; when name is present in the table and not reserved, the
stored value is produced. -/
theorem c7_amended : ∀ (name : RString) (e : OperationEngine),
    (Expression.execute (.variableExpr name) e =
        .error (.error (.variableNotDefined name)) ↔
      (name ≠ global_index_name ∧ name ≠ local_index_name ∧
        lookupVar e.vars name = none)) ∧
    (∀ v, name ≠ global_index_name → name ≠ local_index_name →
      lookupVar e.vars name = some v →
      Expression.execute (.variableExpr name) e = .ok (some v, e)) := by
  intro name e
  constructor
  · constructor
    · intro h
      by_cases h1 : name = global_index_name
      · simp [Expression.execute, OperationEngine.get_variable, h1] at h
      · by_cases h2 : name = local_index_name
        · have hne : local_index_name ≠ global_index_name := by decide
          simp [Expression.execute, OperationEngine.get_variable, h1, h2, hne] at h
        · refine ⟨h1, h2, ?_⟩
          cases h3 : lookupVar e.vars name with
          | none => rfl
          | some v =>
            simp [Expression.execute, OperationEngine.get_variable,
              h1, h2, h3] at h
    · rintro ⟨h1, h2, h3⟩
      simp [Expression.execute, OperationEngine.get_variable, h1, h2, h3]
  · intro v h1 h2 h3
    simp [Expression.execute, OperationEngine.get_variable, h1, h2, h3]

/-- Witness for the amended C7: a fresh engine misses the ordinary name x,
and an engine whose table binds x produces the stored value. -/
theorem c7_witness :
    (Expression.execute (.variableExpr exNameX) eng0 =
        .error (.error (.variableNotDefined exNameX)) ↔
      (exNameX ≠ global_index_name ∧ exNameX ≠ local_index_name ∧
        lookupVar eng0.vars exNameX = none)) ∧
    Expression.execute (.variableExpr exNameX) (eng0.set_variable exNameX exValV) =
      .ok (some exValV, eng0.set_variable exNameX exValV) :=
  ⟨(c7_amended exNameX eng0).1,
   (c7_amended exNameX (eng0.set_variable exNameX exValV)).2 exValV
     (by decide) (by decide) rfl⟩

/-- Claim C8 counterexample: Insert with Index(5) on the three-byte base
"abc" does not report an error — the source clamps the offset with
i.min(base.len()) and produces the value "abcx". -/
theorem c8_counterexample :
    Expression.execute (.insert (.index 5) (.constant (strToR ("abc")))
        (.constant (strToR ("x")))) eng0 =
      .ok (some (strToR ("abcx")), eng0) ∧
    byteLen (strToR ("abc")) < 5 :=
  ⟨rfl, by decide⟩

/-- Claim C8 as amended: when the index exceeds the base's byte length,
Insert(Index(i)) clamps the insertion offset to the base's length and
produces the base with the insertion text appended; the
InsertIndexTooLarge error of the error enum is never raised here. -/
theorem c8_amended : ∀ (i : Nat) (base insertion_text : Expression)
    (e e1 e2 : OperationEngine) (bv iv : RString),
    base.execute e = .ok (some bv, e1) →
    insertion_text.execute e1 = .ok (some iv, e2) →
    byteLen bv < i →
    Expression.execute (.insert (.index i) base insertion_text) e =
      .ok (some (bv ++ iv), e2) := by
  intro i base insertion_text e e1 e2 bv iv h1 h2 h3
  have hmin : min i (byteLen bv) = byteLen bv := Nat.min_eq_right (le_of_lt h3)
  simp [Expression.execute, h1, h2, hmin, rustInsertStr_byteLen]

/-- Witness for the amended C8 at concrete operands. -/
theorem c8_witness :
    byteLen (strToR ("ab")) < 7 ∧
    Expression.execute (.insert (.index 7) (.constant (strToR ("ab")))
        (.constant (strToR ("cd")))) eng0 =
      .ok (some (strToR ("ab") ++ strToR ("cd")), eng0) :=
  ⟨by decide,
   c8_amended 7 (.constant (strToR ("ab"))) (.constant (strToR ("cd")))
     eng0 eng0 eng0 (strToR ("ab")) (strToR ("cd")) rfl rfl (by decide)⟩

/-- Claim C10: the names global_index and local_index are reserved —
Variable on them always succeeds with the decimal rendering of the
engine's counter, regardless of the table, and a table binding written
under either name via set_variable (the effect of AssignVariable) is
shadowed by the counter. -/
theorem c10_reserved_index_variables :
    (∀ (e : OperationEngine),
      Expression.execute (.variableExpr global_index_name) e =
        .ok (some (natToRString e.global_index), e)) ∧
    (∀ (e : OperationEngine),
      Expression.execute (.variableExpr local_index_name) e =
        .ok (some (natToRString e.local_index), e)) ∧
    (∀ (e : OperationEngine) (v : RString),
      Expression.execute (.variableExpr global_index_name)
          (e.set_variable global_index_name v) =
        .ok (some (natToRString e.global_index),
          e.set_variable global_index_name v)) ∧
    (∀ (e : OperationEngine) (v : RString),
      Expression.execute (.variableExpr local_index_name)
          (e.set_variable local_index_name v) =
        .ok (some (natToRString e.local_index),
          e.set_variable local_index_name v)) := by
  have hne : local_index_name ≠ global_index_name := by decide
  refine ⟨?_, ?_, ?_, ?_⟩
  · intro e
    simp [Expression.execute, OperationEngine.get_variable]
  · intro e
    simp [Expression.execute, OperationEngine.get_variable, hne]
  · intro e v
    simp [Expression.execute, OperationEngine.get_variable,
      OperationEngine.set_variable]
  · intro e v
    simp [Expression.execute, OperationEngine.get_variable,
      OperationEngine.set_variable, hne]

/-- Claim C3: two File records with the same source make both run and
dry_run end in the duplicate-source error, detected at commit time before
the clashing record's rename is performed (with the always-succeeding
rename oracle, the performed renames are exactly those of the records
before the clash); with pairwise distinct sources no duplicate-source
error is ever raised, under any rename oracle. -/
theorem c3_duplicate_sources :
    (∀ (t : RenameTree) (st : FsState), t.file_set = [] →
      ¬ (t.files.map (fun f => f.source)).Nodup →
      (∃ s, (t.dry_run st).2 = .error (.error (.duplicateFileError s))) ∧
      (∃ k f', k < t.files.length ∧ t.files[k]? = some f' ∧
        f'.source ∈ (t.files.take k).map (fun x => x.source) ∧
        t.run alwaysOk st =
          ({ renames := st.renames ++
              ((t.files.take k).map (fun g => (g.source, g.destination))) },
           .error (.error (.duplicateFileError f'.source.display))))) ∧
    (∀ (t : RenameTree) (st : FsState) (ok : RPath → RPath → Bool) (s : RString),
      t.file_set = [] → (t.files.map (fun f => f.source)).Nodup →
      (t.dry_run st).2 ≠ .error (.error (.duplicateFileError s)) ∧
      (t.run ok st).2 ≠ .error (.error (.duplicateFileError s))) := by
  constructor
  · intro t st h0 hnd
    obtain ⟨j, g, hj, hg⟩ := files_dup_witness t.files hnd
    constructor
    · have hd := dry_go_dup t.files [] st ⟨j, g, hj, Or.inr hg⟩
      simpa [RenameTree.dry_run, RenameTree.run_with_fn, h0] using hd
    · obtain ⟨k, f', hk', hclash, heq⟩ :=
        run_go_dup t.files [] st ⟨j, g, hj, Or.inr hg⟩
      have hlt : k < t.files.length := by
        rcases Nat.lt_or_ge k t.files.length with hlt | hge
        · exact hlt
        · rw [List.getElem?_eq_none hge] at hk'
          exact absurd hk' (by simp)
      have hclash' : f'.source ∈ (t.files.take k).map (fun x => x.source) := by
        rcases hclash with hc | hc
        · exact absurd hc (List.not_mem_nil _)
        · exact hc
      refine ⟨k, f', hlt, hk', hclash', ?_⟩
      simpa [RenameTree.run, RenameTree.run_with_fn, h0] using heq
  · intro t st ok s h0 hnd
    constructor
    · have hd := go_no_dup_error dry_rename_file
        (by intro s' d stx p; simp [dry_rename_file]) t.files [] st hnd
        (fun g _ => List.not_mem_nil g.source) s
      simpa [RenameTree.dry_run, RenameTree.run_with_fn, h0] using hd
    · have hr := go_no_dup_error (rename_file ok)
        (by
          intro s' d stx p
          simp only [rename_file]
          split_ifs <;> simp) t.files [] st hnd
        (fun g _ => List.not_mem_nil g.source) s
      simpa [RenameTree.run, RenameTree.run_with_fn, h0] using hr

/-- Witness for C3: the duplicate tree (two records claiming d1/a.txt)
raises the duplicate-source error with no rename performed for the second
record, and the distinct-source tree never raises it. -/
theorem c3_witness :
    (¬ (exDupTree.files.map (fun f => f.source)).Nodup) ∧
    ((∃ s, (exDupTree.dry_run ⟨[]⟩).2 = .error (.error (.duplicateFileError s))) ∧
      (∃ k f', k < exDupTree.files.length ∧ exDupTree.files[k]? = some f' ∧
        f'.source ∈ (exDupTree.files.take k).map (fun x => x.source) ∧
        exDupTree.run alwaysOk ⟨[]⟩ =
          ({ renames := (⟨[]⟩ : FsState).renames ++
              ((exDupTree.files.take k).map (fun g => (g.source, g.destination))) },
           .error (.error (.duplicateFileError f'.source.display))))) ∧
    (exOkTree.files.map (fun f => f.source)).Nodup ∧
    ((exOkTree.dry_run ⟨[]⟩).2 ≠
        .error (.error (.duplicateFileError exPathA.display)) ∧
      (exOkTree.run alwaysOk ⟨[]⟩).2 ≠
        .error (.error (.duplicateFileError exPathA.display))) :=
  ⟨by decide,
   c3_duplicate_sources.1 exDupTree ⟨[]⟩ rfl (by decide),
   by decide,
   c3_duplicate_sources.2 exOkTree ⟨[]⟩ alwaysOk exPathA.display rfl (by decide)⟩

/-- Claim C4: for a tree with pairwise distinct sources, whenever run
succeeds (under any rename oracle) dry_run produces the identical result
list; and dry_run never performs a filesystem operation — its final
filesystem state is its initial one, unconditionally. -/
theorem c4_dry_run_refines_run :
    (∀ (t : RenameTree) (ok : RPath → RPath → Bool) (st st2 : FsState)
        (l : List RenameResult),
      (t.files.map (fun f => f.source)).Nodup →
      t.run ok st = (st2, .ok l) →
      t.dry_run st = (st, .ok l)) ∧
    (∀ (t : RenameTree) (st : FsState), (t.dry_run st).1 = st) := by
  constructor
  · intro t ok st st2 l _ h
    exact run_ok_imp_dry_go t.files t.file_set st ok st2 l h
  · intro t st
    exact dry_go_fst t.files t.file_set st

/-- Witness for C4: on the distinct-source tree, a successful run and the
dry run produce the same pairs, and the dry run leaves the filesystem
log empty. -/
theorem c4_witness :
    exOkTree.dry_run ⟨[]⟩ =
      (⟨[]⟩, .ok [{ source := exPathA, destination := exPathA },
                  { source := exPathB, destination := exPathB }]) ∧
    (exOkTree.dry_run ⟨[]⟩).1 = ⟨[]⟩ :=
  ⟨c4_dry_run_refines_run.1 exOkTree alwaysOk ⟨[]⟩
      ⟨[(exPathA, exPathA), (exPathB, exPathB)]⟩
      [{ source := exPathA, destination := exPathA },
       { source := exPathB, destination := exPathB }] (by decide) rfl,
   c4_dry_run_refines_run.2 exOkTree ⟨[]⟩⟩

/-- Claim C9: no file or directory operation ever changes a source field —
a file operation leaves the engine's list of sources unchanged (only the
current record's destination and the engine state are mutated), and a
directory operation only sorts or drops records: every surviving record of
its output list is one of the input records, unchanged. -/
theorem c9_frame :
    (∀ (op : FileOperation) (e : OperationEngine) (b : Bool)
        (e' : OperationEngine),
      op.execute e = .ok (b, e') →
      e'.files.map (fun f => f.source) = e.files.map (fun f => f.source)) ∧
    (∀ (op : DirOperation) (e : OperationEngine) (fs : List File)
        (e' : OperationEngine) (fs' : List File),
      op.execute e fs = .ok (e', fs') →
      (∀ f ∈ fs', f ∈ fs) ∧
        e'.files.map (fun f => f.source) = e.files.map (fun f => f.source)) := by
  constructor
  · intro op e b e' h
    exact (fileop_execute_preserves op e b e' h).1
  · intro op e fs e' fs' h
    cases op with
    | sort direction =>
      cases direction with
      | ascending =>
        simp only [DirOperation.execute, Except.ok.injEq, Prod.mk.injEq] at h
        obtain ⟨he, hf⟩ := h
        subst he; subst hf
        exact ⟨fun f hf => mem_sortFiles _ f fs hf, rfl⟩
      | descending =>
        simp only [DirOperation.execute, Except.ok.injEq, Prod.mk.injEq] at h
        obtain ⟨he, hf⟩ := h
        subst he; subst hf
        exact ⟨fun f hf => mem_sortFiles _ f fs hf, rfl⟩
    | remove rule =>
      simp only [DirOperation.execute] at h
      split at h
      next fl heq => exact Except.noConfusion h
      next res heq =>
        simp only [Except.ok.injEq, Prod.mk.injEq] at h
        obtain ⟨he, hf⟩ := h
        subst he; subst hf
        exact ⟨filterFilesByRule_mem rule false fs res heq, rfl⟩
    | includeOnly rule =>
      simp only [DirOperation.execute] at h
      split at h
      next fl heq => exact Except.noConfusion h
      next res heq =>
        simp only [Except.ok.injEq, Prod.mk.injEq] at h
        obtain ⟨he, hf⟩ := h
        subst he; subst hf
        exact ⟨filterFilesByRule_mem rule true fs res heq, rfl⟩
    | offsetLocalIndex offset =>
      simp only [DirOperation.execute, Except.ok.injEq, Prod.mk.injEq] at h
      obtain ⟨he, hf⟩ := h
      subst he; subst hf
      exact ⟨fun f hf => hf, rfl⟩

/-- Witness for C9: SetName(Constant "n") rewrites only the destination of
the current record, and IncludeOnly keeps the surviving record of its
input list unchanged. -/
theorem c9_witness :
    FileOperation.execute (.setName (.constant (strToR ("n")))) exEngineW9 =
      .ok (true, exEngineW9out) ∧
    exEngineW9out.files.map (fun f => f.source) =
      exEngineW9.files.map (fun f => f.source) ∧
    DirOperation.execute (.includeOnly exKeepRule) exEngineW9
        [exFileKeep, exFileDrop] = .ok (exEngineW9, [exFileKeep]) ∧
    exFileKeep ∈ [exFileKeep, exFileDrop] :=
  ⟨rfl,
   c9_frame.1 (.setName (.constant (strToR ("n")))) exEngineW9 true exEngineW9out rfl,
   rfl,
   (c9_frame.2 (.includeOnly exKeepRule) exEngineW9 [exFileKeep, exFileDrop]
       exEngineW9 [exFileKeep] rfl).1 exFileKeep (List.mem_singleton.mpr rfl)⟩

/-- The testable string vectors of the spec's §8, checked against the
embedded evaluators (the commented tests of the source use the same
values). -/
theorem spec_section8_vectors :
    Expression.execute (.replace (.constant (strToR ("test message hello")))
        .first (.constant (strToR ("message"))) (.constant (strToR ("yo")))) eng0 =
      .ok (some (strToR ("test yo hello")), eng0) ∧
    Expression.execute (.replace (.constant (strToR ("test message message hello")))
        .last (.constant (strToR ("message"))) (.constant (strToR ("yo")))) eng0 =
      .ok (some (strToR ("test message yo hello")), eng0) ∧
    Expression.execute (.left (.constant (strToR ("test message message hello")))
        (.constant (strToR ("message"))) true) eng0 =
      .ok (some (strToR ("test message")), eng0) ∧
    Expression.execute (.left (.constant (strToR ("test message message hello")))
        (.constant (strToR ("message"))) false) eng0 =
      .ok (some (strToR ("test ")), eng0) ∧
    Expression.execute (.right (.constant (strToR ("test message message hello")))
        (.constant (strToR ("message"))) true) eng0 =
      .ok (some (strToR ("message message hello")), eng0) ∧
    Expression.execute (.right (.constant (strToR ("test message message hello")))
        (.constant (strToR ("message"))) false) eng0 =
      .ok (some (strToR (" message hello")), eng0) ∧
    Expression.execute (.combine .fileName (.constant (strToR ("x"))))
        exEngineNoName = .ok (some (strToR ("x")), exEngineNoName) ∧
    Expression.execute (.combine (.constant (strToR ("x"))) .fileName)
        exEngineNoName = .ok (some (strToR ("x")), exEngineNoName) ∧
    MatchRule.resolve (.contains (strToR (""))) (strToR ("test")) = some true :=
  ⟨rfl, rfl, rfl, rfl, rfl, rfl, rfl, rfl, rfl⟩
